import Mathlib

/-!
Verification development for the finite model builder (FMB), the transparent
SAT pre-solver and the AIG definition introducer of the Vampire fork under
study.  Every definition is a shallow embedding of the corresponding C++
function; machine `unsigned` arithmetic is modelled over `Nat` with the
32-bit bound made explicit where the source checks it.
-/

namespace FMB

/-- The C `UINT_MAX` constant (32-bit unsigned). -/
def UINT_MAX : Nat := 4294967295

/-- Signature as seen by `FiniteModelBuilderNonIncremental::reset`:
the arities of the function symbols `0 .. functions()-1` and of the
predicate symbols `1 .. predicates()-1` (the loop in `reset` starts at
predicate 1, so predicate 0 carries no offset). -/
structure Sig where
  funArities : List Nat
  predArities : List Nat
deriving DecidableEq

/-- One offset-accumulation loop of `reset` (lines 61-80 of
FiniteModelBuilderNonIncremental.cpp).  For each symbol of arity `a` the
code reserves `add = pow(size, a + bump)` propositional variables
(`bump = 2` in the function loop, `bump = 1` in the predicate loop),
records the current offset for the symbol, checks
`UINT_MAX - add < offsets` and bails out (overflow) when it holds.
Returns the recorded per-symbol offsets together with the final counter;
`none` models the `return false` overflow exit. -/
def offsetLoop (size bump : Nat) : List Nat → Nat → Option (List Nat × Nat)
  | [], off => some ([], off)
  | a :: rest, off =>
    let add := size ^ (a + bump)
    if UINT_MAX - add < off then none
    else
      match offsetLoop size bump rest (off + add) with
      | none => none
      | some (offs, fin) => some (off :: offs, fin)

/-- `FiniteModelBuilderNonIncremental::reset` (offset computation part):
offsets start at 1, the function loop runs first, the predicate loop
continues from where it stopped.  Returns `(f_offsets, p_offsets, final)`
or `none` on overflow. -/
def reset (sg : Sig) (size : Nat) : Option (List Nat × List Nat × Nat) :=
  match offsetLoop size 2 sg.funArities 1 with
  | none => none
  | some (fo, off1) =>
    match offsetLoop size 1 sg.predArities off1 with
    | none => none
    | some (po, off2) => some (fo, po, off2)

/-- Successive differences of a list: the size of each block delimited by
consecutive offsets. -/
def succDiffs : List Nat → List Nat
  | a :: b :: t => (b - a) :: succDiffs (b :: t)
  | _ => []

/-- A SAT literal: variable index and polarity (`true` = positive). -/
structure SATLit where
  var : Nat
  polarity : Bool
deriving DecidableEq, Repr

/-- Literals of a flattened first-order clause, as classified by
`addNewInstances` and `init`: a two-variable equality `x = y`, a functional
equality `f(v1..va) = v` with variable arguments, or a predicate literal
with variable arguments. -/
inductive FlatLit where
  | twoVarEq (pol : Bool) (x y : Nat)
  | funEq (pol : Bool) (f : Nat) (args : List Nat) (resVar : Nat)
  | pred (pol : Bool) (p : Nat) (args : List Nat)
deriving DecidableEq, Repr

/-- Variables occurring in a flattened literal, in argument order. -/
def litVars : FlatLit → List Nat
  | .twoVarEq _ x y => [x, y]
  | .funEq _ _ args r => args ++ [r]
  | .pred _ _ args => args

/-- Variables occurring in a clause. -/
def clauseVars (c : List FlatLit) : List Nat :=
  c.foldr (fun l acc => litVars l ++ acc) []

/-- `Clause::varCnt()`: the number of distinct variables of the clause. -/
def varCnt (c : List FlatLit) : Nat := (clauseVars c).dedup.length

/-- The test of the `posEqs` counting loop in `init` (lines 140-146):
`l->isTwoVarEquality() && l->isPositive() && arg0 != arg1`. -/
def isPosTwoVarDistinct : FlatLit → Bool
  | .twoVarEq pol x y => pol && decide (x ≠ y)
  | _ => false

/-- The `posEqs` counter of `init`: it counts literals satisfying
`isPosTwoVarDistinct` from the front of the clause and stops at the first
literal that does not (the loop breaks there). -/
def leadingPosEqs : List FlatLit → Nat
  | [] => 0
  | l :: ls => if isPosTwoVarDistinct l then leadingPosEqs ls + 1 else 0

/-- One clause of the `init` loop updating `_maxModelSize` (lines 128-153):
ground clauses (`varCnt == 0`) take the other branch; a non-ground clause
whose every literal is a leading positive two-variable equality and whose
variable count is below the current bound lowers the bound to its variable
count. -/
def initMaxModelSizeStep (cur : Nat) (c : List FlatLit) : Nat :=
  if varCnt c = 0 then cur
  else if leadingPosEqs c = c.length ∧ varCnt c < cur then varCnt c
  else cur

/-- The value of `_maxModelSize` after `init` has scanned all flattened
clauses, starting from its constructor value `UINT_MAX`. -/
def initMaxModelSize (cls : List (List FlatLit)) : Nat :=
  cls.foldl initMaxModelSizeStep UINT_MAX

/-- Truncation to 32-bit unsigned, for the wrap-around semantics of the
`unsigned` arithmetic in `getSATLiteral`. -/
def u32 (n : Nat) : Nat := n % 4294967296

/-- `FiniteModelBuilderNonIncremental::getSATLiteral` (lines 623-649):
`var = offset + sum_i mult_i * (grounding_i - 1)` with `mult` multiplied by
`size` after every position, all in `unsigned` arithmetic.  The offset
tables are passed as functions `fOff`/`pOff`. -/
def getSATLiteral (fOff pOff : Nat → Nat) (size : Nat) (f : Nat)
    (grounding : List Nat) (polarity : Bool) (isFunction : Bool) : SATLit :=
  let offset := if isFunction then fOff f else pOff f
  let vm := grounding.foldl
    (fun (vm : Nat × Nat) g => (u32 (vm.1 + u32 (vm.2 * (g - 1))), u32 (vm.2 * size)))
    (u32 offset, 1)
  ⟨vm.1, polarity⟩

/-- The literal-translation loop of `addNewInstances` for one grounding
(lines 349-388).  `g` maps clause variables to domain elements.  For a
two-variable equality the code skips the whole instance (modelled by
`none`) when `(positive && equal) || (!positive && !equal)` and skips just
the literal when `(positive && !equal) || (!positive && equal)`; the two
guards are complementary, so the fall-through into the functional-equality
branch is unreachable for a two-variable equality.  Functional equalities
use the function block with grounding `args*g ++ [g resVar]`, other
literals the predicate block with grounding `args*g`. -/
def groundLitsOfClause (fOff pOff : Nat → Nat) (size : Nat) (g : Nat → Nat) :
    List FlatLit → Option (List SATLit)
  | [] => some []
  | lit :: rest =>
    match lit with
    | .twoVarEq pol x y =>
      let equal := g x == g y
      if (pol && equal) || (!pol && !equal) then none
      else groundLitsOfClause fOff pOff size g rest
    | .funEq pol f args resVar =>
      match groundLitsOfClause fOff pOff size g rest with
      | none => none
      | some tl =>
        some (getSATLiteral fOff pOff size f (args.map g ++ [g resVar]) pol true :: tl)
    | .pred pol p args =>
      match groundLitsOfClause fOff pOff size g rest with
      | none => none
      | some tl =>
        some (getSATLiteral fOff pOff size p (args.map g) pol false :: tl)

/-- Spec-side reading of the two-variable-equality case: the grounding
makes the literal true. -/
def twoVarEqSatisfied (g : Nat → Nat) : FlatLit → Bool
  | .twoVarEq pol x y => pol == (g x == g y)
  | _ => false

/-- Spec-side translation of a single kept literal: two-variable
equalities are dropped, functional equalities go through the function
block, everything else through the predicate block. -/
def emitGroundLit (fOff pOff : Nat → Nat) (size : Nat) (g : Nat → Nat) :
    FlatLit → Option SATLit
  | .twoVarEq _ _ _ => none
  | .funEq pol f args resVar =>
    some (getSATLiteral fOff pOff size f (args.map g ++ [g resVar]) pol true)
  | .pred pol p args =>
    some (getSATLiteral fOff pOff size p (args.map g) pol false)

/-- Modelled from the spec: `SAT::Preprocess::removeDuplicateLiterals`
(SAT/Preprocess.hpp, not part of the sources under study) removes repeated
literals from a SAT clause and eliminates the clause altogether —
returning the null pointer, modelled as `none` — when it is a tautology
containing a literal together with its complement. -/
def removeDuplicateLiterals (cl : List SATLit) : Option (List SATLit) :=
  let d := cl.dedup
  if d.any (fun l => d.contains ⟨l.var, !l.polarity⟩) then none else some d

/-- `FiniteModelBuilderNonIncremental::addSATClause` (lines 651-662): the
clause is preprocessed by duplicate-literal removal; a null result is
dropped, otherwise the clause is pushed onto `_clausesToBeAdded`. -/
def addSATClause (cl : List SATLit) (clausesToBeAdded : List (List SATLit)) :
    List (List SATLit) :=
  match removeDuplicateLiterals cl with
  | none => clausesToBeAdded
  | some cl => cl :: clausesToBeAdded

/-- Result of the inner SAT solver's `solve`. -/
inductive SatResult where
  | satisfiable | unsatisfiable | unknown
deriving DecidableEq, Repr

/-- Observable outcome of `runImpl`, one constructor per `return` site
(the three `UNKNOWN` sites are distinguished by their printed verdicts). -/
inductive FMBOutcome where
  | unknownIncomplete
  | timeLimit
  | satisfiableModel
  | unknownSizeMax
  | refutation
  | unknownCannotRepresent
deriving DecidableEq, Repr

/-- Parameters of a `runImpl` execution.  The clause families handed to
the SAT solver at each size are abstracted by the oracle `satResult`
(the verdict of `_solver->solve()` at that size), and the deadline check
by `timeLimitReached`. -/
structure FMBParams where
  sig : Sig
  isComplete : Bool
  isEPR : Bool
  constantCount : Nat
  initBound : Nat
  satResult : Nat → SatResult
  timeLimitReached : Nat → Bool

/-- The value of `_maxModelSize` at loop entry: `runImpl` overwrites it
with `_constantCount` when the problem is EPR (line 681), otherwise it
keeps the bound computed by `init`. -/
def maxModelSize (p : FMBParams) : Nat :=
  if p.isEPR then p.constantCount else p.initBound

/-- The `while(true)` loop of `runImpl` (lines 689-787), driven by fuel
(the loop runs at most `UINT_MAX` rounds because of the `modelSize ==
UINT_MAX` exit).  Per round: deadline check, solve, `SATISFIABLE` exit,
`modelSize == UINT_MAX` exit, `modelSize >= _maxModelSize` refutation
exit, otherwise increment the size and re-run `reset`, exiting with the
"cannot represent all propositional literals" verdict when it overflows. -/
def fmbLoop (p : FMBParams) (m : Nat) : Nat → Nat → Option FMBOutcome
  | 0, _ => none
  | fuel + 1, size =>
    if p.timeLimitReached size then some .timeLimit
    else if p.satResult size = .satisfiable then some .satisfiableModel
    else if size = UINT_MAX then some .unknownSizeMax
    else if m ≤ size then some .refutation
    else
      match reset p.sig (size + 1) with
      | none => some .unknownCannotRepresent
      | some _ => fmbLoop p m fuel (size + 1)

/-- `FiniteModelBuilderNonIncremental::runImpl` (lines 664-791).  The
`ALWAYS(reset(1))` call at line 688 ignores the overflow result: in a
debug build a failing `reset(1)` is an assertion violation and in a
release build the loop would dereference the never-created solver, so no
`MainLoopResult` is produced either way — modelled by `none`. -/
def runImpl (p : FMBParams) : Option FMBOutcome :=
  if p.isComplete = false then some .unknownIncomplete
  else
    match reset p.sig 1 with
    | none => none
    | some _ => fmbLoop p (maxModelSize p) UINT_MAX 1

end FMB

namespace FMB

theorem succDiffs_cons (x : Nat) (l : List Nat) (h : l ≠ []) :
    succDiffs (x :: l) = (l.headD 0 - x) :: succDiffs l := by
  cases l with
  | nil => exact absurd rfl h
  | cons y t => rfl

theorem offsetLoop_spec (size bump : Nat) :
    ∀ (ar : List Nat) (off : Nat) (offs : List Nat) (fin : Nat),
      offsetLoop size bump ar off = some (offs, fin) →
      succDiffs (offs ++ [fin]) = ar.map (fun a => size ^ (a + bump)) ∧
      (offs ++ [fin]).head? = some off := by
  intro ar
  induction ar with
  | nil =>
    intro off offs fin h
    simp only [offsetLoop, Option.some.injEq, Prod.mk.injEq] at h
    obtain ⟨h1, h2⟩ := h
    subst h1; subst h2
    simp [succDiffs]
  | cons a rest ih =>
    intro off offs fin h
    simp only [offsetLoop] at h
    split at h
    · exact absurd h (by simp)
    · split at h
      · exact absurd h (by simp)
      next offs' fin' hrec =>
        simp only [Option.some.injEq, Prod.mk.injEq] at h
        obtain ⟨h1, h2⟩ := h
        subst h1; subst h2
        obtain ⟨ihd, ihh⟩ := ih _ _ _ hrec
        refine ⟨?_, by simp⟩
        rw [List.cons_append, succDiffs_cons _ _ (by simp)]
        have hhd : (offs' ++ [fin']).headD 0 = off + size ^ (a + bump) := by
          cases offs' with
          | nil => simpa using ihh
          | cons z t => simpa using ihh
        rw [hhd, Nat.add_sub_cancel_left, ihd]
        simp

theorem succDiffs_append :
    ∀ (xs : List Nat) (y : Nat) (ys : List Nat),
      succDiffs (xs ++ y :: ys) = succDiffs (xs ++ [y]) ++ succDiffs (y :: ys) := by
  intro xs
  induction xs with
  | nil => intro y ys; simp [succDiffs]
  | cons x t ih =>
    intro y ys
    cases t with
    | nil => simp [succDiffs]
    | cons x2 t2 =>
      have h := ih y ys
      simp only [List.cons_append] at h ⊢
      rw [succDiffs, succDiffs, h]
      simp [List.cons_append]

/-- C2: the claim states that the block reserved for a function of arity
`a` (the gap between its offset and the next symbol's offset) contains
`size^(a+1)` variables and that a predicate's block contains `size^a`;
the code reserves `pow(size, arity+2)` and `pow(size, arity+1)`.  At size
2 a single arity-0 function gets offset 1 and the next offset is 5, a gap
of 4 variables instead of the claimed `2^(0+1) = 2`. -/
theorem c2_counterexample :
    reset ⟨[0], []⟩ 2 = some ([1], [], 5) ∧ 5 - 1 ≠ 2 ^ (0 + 1) := by
  decide

/-- C2 (amended): whenever `reset` succeeds, the cumulative offsets
delimit a block of exactly `size^(a+2)` propositional variables for each
function of arity `a` and `size^(a+1)` variables for each predicate of
arity `a` — one factor of `size` more than the claim states. -/
theorem c2_amended (sg : Sig) (size : Nat) (fo po : List Nat) (fin : Nat)
    (h : reset sg size = some (fo, po, fin)) :
    succDiffs (fo ++ po ++ [fin]) =
      sg.funArities.map (fun a => size ^ (a + 2)) ++
      sg.predArities.map (fun a => size ^ (a + 1)) := by
  unfold reset at h
  split at h
  · exact absurd h (by simp)
  next fo' off1 hf =>
    split at h
    · exact absurd h (by simp)
    next po' fin' hp =>
      simp only [Option.some.injEq, Prod.mk.injEq] at h
      obtain ⟨h1, h2, h3⟩ := h
      subst h1; subst h2; subst h3
      obtain ⟨hfd, hfh⟩ := offsetLoop_spec size 2 _ _ _ _ hf
      obtain ⟨hpd, hph⟩ := offsetLoop_spec size 1 _ _ _ _ hp
      cases po' with
      | nil =>
        simp only [List.nil_append, List.head?_cons, Option.some.injEq] at hph
        subst hph
        have hP : sg.predArities.map (fun a => size ^ (a + 1)) = [] := by
          simpa [succDiffs] using hpd.symm
        rw [hP, List.append_nil, List.append_nil]
        exact hfd
      | cons p0 pot =>
        simp only [List.cons_append, List.head?_cons, Option.some.injEq] at hph
        subst hph
        have hglue := succDiffs_append fo' p0 (pot ++ [fin'])
        simp only [List.cons_append, List.append_assoc] at hglue ⊢
        rw [hglue, hfd, ← List.cons_append, hpd]

/-- C2 witness: the amended gap computation evaluated on a concrete
signature (one unary function, one binary predicate) at size 3. -/
theorem c2_witness :
    succDiffs ([1, 10] ++ [37] ++ [64]) =
      [0, 1].map (fun a => 3 ^ (a + 2)) ++ [2].map (fun a => 3 ^ (a + 1)) :=
  c2_amended ⟨[0, 1], [2]⟩ 3 [1, 10] [37] 64 (by decide)

/-- C4: the claim states that the EPR clamp never loosens a smaller bound
previously derived from an all-positive-equality clause.  The clause
`x = y` sets the bound to 2 in `init`, but with 5 constant symbols the
EPR branch of `runImpl` overwrites the bound with 5. -/
theorem c4_counterexample :
    initMaxModelSize [[.twoVarEq true 0 1]] = 2 ∧
    maxModelSize ⟨⟨[], []⟩, true, true, 5, initMaxModelSize [[.twoVarEq true 0 1]],
      fun _ => .unsatisfiable, fun _ => false⟩ = 5 ∧
    ¬(5 ≤ 2) := by
  constructor
  · decide
  · constructor
    · rfl
    · decide

/-- C4 (amended): in the EPR case `runImpl` assigns `_maxModelSize :=
_constantCount` outright, so the resulting bound equals (hence never
exceeds) the constant count, but the assignment pays no attention to the
previously derived bound: the result is the same whatever `init`
computed. -/
theorem c4_amended (p : FMBParams) (h : p.isEPR = true) :
    maxModelSize p = p.constantCount ∧
    maxModelSize p ≤ p.constantCount ∧
    ∀ b c : Nat,
      maxModelSize ⟨p.sig, p.isComplete, p.isEPR, p.constantCount, b,
        p.satResult, p.timeLimitReached⟩ =
      maxModelSize ⟨p.sig, p.isComplete, p.isEPR, p.constantCount, c,
        p.satResult, p.timeLimitReached⟩ := by
  unfold maxModelSize
  rw [h]
  simp

/-- C4 witness: the amended EPR assignment at a concrete parameter
record with 3 constants and a previously derived bound of 2. -/
theorem c4_witness :
    maxModelSize ⟨⟨[], []⟩, true, true, 3, 2, fun _ => .unsatisfiable, fun _ => false⟩ = 3 ∧
    maxModelSize ⟨⟨[], []⟩, true, true, 3, 2, fun _ => .unsatisfiable, fun _ => false⟩ ≤ 3 ∧
    ∀ b c : Nat,
      maxModelSize ⟨⟨[], []⟩, true, true, 3, b, fun _ => .unsatisfiable, fun _ => false⟩ =
      maxModelSize ⟨⟨[], []⟩, true, true, 3, c, fun _ => .unsatisfiable, fun _ => false⟩ :=
  c4_amended ⟨⟨[], []⟩, true, true, 3, 2, fun _ => .unsatisfiable, fun _ => false⟩ rfl

/-- C9: every clause queued by `addSATClause` has passed duplicate-literal
removal, so no queued clause contains a literal twice, and when the
preprocessing eliminates the clause (`none`) the queue is unchanged. -/
theorem c9_theorem (cl : List SATLit) (q : List (List SATLit))
    (hq : ∀ c ∈ q, c.Nodup) :
    (∀ c ∈ addSATClause cl q, c.Nodup) ∧
    (removeDuplicateLiterals cl = none → addSATClause cl q = q) := by
  have hsome : ∀ d, removeDuplicateLiterals cl = some d → d.Nodup := by
    intro d hd
    simp only [removeDuplicateLiterals] at hd
    split at hd
    · exact absurd hd (by simp)
    · have hdd : cl.dedup = d := by simpa using hd
      rw [← hdd]
      exact List.nodup_dedup cl
  unfold addSATClause
  split
  next hrd => exact ⟨hq, fun _ => rfl⟩
  next d hrd =>
    refine ⟨?_, ?_⟩
    · intro c hc
      cases hc with
      | head => exact hsome d hrd
      | tail _ hmem => exact hq c hmem
    · intro hnone
      rw [hrd] at hnone
      exact absurd hnone (by simp)

/-- C9 witness: queuing the clause `[v1, v1, ¬v2]` onto an empty queue
yields only duplicate-free clauses. -/
theorem c9_witness :
    (∀ c ∈ addSATClause [⟨1, true⟩, ⟨1, true⟩, ⟨2, false⟩] [], c.Nodup) ∧
    (removeDuplicateLiterals [⟨1, true⟩, ⟨1, true⟩, ⟨2, false⟩] = none →
      addSATClause [⟨1, true⟩, ⟨1, true⟩, ⟨2, false⟩] [] = []) :=
  c9_theorem [⟨1, true⟩, ⟨1, true⟩, ⟨2, false⟩] [] (by simp)

/-- C1: the claim states that a grounding *contradicting* a two-variable
equality literal skips the whole instance.  Under the grounding
`0 ↦ 1, 1 ↦ 2` the positive literal `x0 = x1` is contradicted, yet the
code emits a SAT clause for the instance (it merely drops the literal):
the result is not `none`. -/
theorem c1_counterexample :
    (fun v : Nat => v + 1) 0 ≠ (fun v : Nat => v + 1) 1 ∧
    groundLitsOfClause (fun _ => 1) (fun _ => 100) 2 (fun v => v + 1)
      [.twoVarEq true 0 1, .pred true 1 [0]] =
      some [getSATLiteral (fun _ => 1) (fun _ => 100) 2 1 [1] true false] := by
  decide

/-- C1 (amended): for every clause and grounding, the instance is skipped
(no SAT clause emitted) exactly when some two-variable equality literal is
*satisfied* by the grounding; otherwise the contradicted two-variable
equalities are dropped and every remaining literal is translated through
the function block (for `t(v⃗) = v` equalities) or the predicate block. -/
theorem c1_amended (fOff pOff : Nat → Nat) (size : Nat) (g : Nat → Nat)
    (c : List FlatLit) :
    groundLitsOfClause fOff pOff size g c =
      if c.any (twoVarEqSatisfied g) then none
      else some (c.filterMap (emitGroundLit fOff pOff size g)) := by
  induction c with
  | nil => simp [groundLitsOfClause]
  | cons lit rest ih =>
    cases lit with
    | twoVarEq pol x y =>
      cases pol <;> cases he : (g x == g y) <;>
        simp [groundLitsOfClause, twoVarEqSatisfied, he, ih, emitGroundLit]
    | funEq pol f args resVar =>
      simp only [groundLitsOfClause, ih, List.any_cons, twoVarEqSatisfied, Bool.false_or,
        List.filterMap_cons, emitGroundLit]
      cases hr : rest.any (twoVarEqSatisfied g) <;> simp [hr]
    | pred pol p args =>
      simp only [groundLitsOfClause, ih, List.any_cons, twoVarEqSatisfied, Bool.false_or,
        List.filterMap_cons, emitGroundLit]
      cases hr : rest.any (twoVarEqSatisfied g) <;> simp [hr]

theorem offsetLoop_one_replicate_none (bump a : Nat) :
    ∀ (n off : Nat), UINT_MAX < off + n → 1 ≤ n →
      offsetLoop 1 bump (List.replicate n a) off = none := by
  have hU : UINT_MAX = 4294967295 := rfl
  intro n
  induction n with
  | zero => intro off h h1; omega
  | succ m ih =>
    intro off h _
    rw [List.replicate_succ]
    simp only [offsetLoop, one_pow]
    split
    · rfl
    next hguard =>
      have hm : 1 ≤ m := by omega
      rw [ih (off + 1) (by omega) hm]

/-- Signature with `UINT_MAX` nullary function symbols: the offset
counter already overflows during `reset(1)`. -/
def bigSig : Sig := ⟨List.replicate UINT_MAX 0, []⟩

/-- FMB parameters for `bigSig` with a complete, non-EPR problem. -/
def bigParams : FMBParams :=
  ⟨bigSig, true, false, 0, UINT_MAX, fun _ => .unsatisfiable, fun _ => false⟩

/-- C3: the claim states that offset overflow at *every* size, including
the initial size 1, makes the run return UNKNOWN with the
"cannot represent" verdict.  With `UINT_MAX` nullary functions the offset
computation overflows already at size 1, but `runImpl` only wraps
`reset(1)` in `ALWAYS(...)`, which ignores the failure: no
`MainLoopResult` is produced (debug builds die on the assertion, release
builds never created the solver), so the run does not return the claimed
UNKNOWN verdict. -/
theorem reset_none_of_fun_overflow (sg : Sig) (size : Nat)
    (h : offsetLoop size 2 sg.funArities 1 = none) : reset sg size = none := by
  unfold reset
  rw [h]

theorem runImpl_none_of_reset1 (p : FMBParams) (hc : p.isComplete = true)
    (h : reset p.sig 1 = none) : runImpl p = none := by
  unfold runImpl
  rw [if_neg (by simp [hc]), h]

theorem c3_counterexample :
    reset bigSig 1 = none ∧ runImpl bigParams = none ∧
    runImpl bigParams ≠ some FMBOutcome.unknownCannotRepresent := by
  have h1 : reset bigSig 1 = none :=
    reset_none_of_fun_overflow bigSig 1
      (offsetLoop_one_replicate_none 2 0 UINT_MAX 1 (by omega) (by decide))
  have h2 : runImpl bigParams = none := runImpl_none_of_reset1 bigParams rfl h1
  exact ⟨h1, h2, by rw [h2]; simp⟩

/-- C3 (amended): overflow detection works at every size the loop reaches
by incrementing, i.e. from size 2 on: when the round at `size` neither
times out, nor finds a model, nor hits the `UINT_MAX` or `maxModelSize`
exits, and `reset(size+1)` overflows, the run returns UNKNOWN with the
"cannot represent all propositional literals" verdict.  At the initial
size 1 the overflow is not handled (see the counterexample). -/
theorem c3_amended (p : FMBParams) (m fuel size : Nat)
    (h1 : p.timeLimitReached size = false)
    (h2 : p.satResult size ≠ .satisfiable)
    (h3 : size ≠ UINT_MAX)
    (h4 : ¬ m ≤ size)
    (h5 : reset p.sig (size + 1) = none) :
    fmbLoop p m (fuel + 1) size = some .unknownCannotRepresent := by
  unfold fmbLoop
  rw [if_neg (by simp [h1]), if_neg h2, if_neg h3, if_neg h4, h5]

/-- C3 witness: a signature whose single function has arity 30 overflows
the 32-bit counter at size 2 (`2^32` variables requested), and the loop
round at size 1 returns the cannot-represent verdict. -/
theorem c3_witness :
    fmbLoop ⟨⟨[30], []⟩, true, false, 0, 5, fun _ => .unsatisfiable, fun _ => false⟩ 5 1 1 =
      some .unknownCannotRepresent :=
  c3_amended ⟨⟨[30], []⟩, true, false, 0, 5, fun _ => .unsatisfiable, fun _ => false⟩ 5 0 1
    rfl (by decide) (by decide) (by decide) (by decide)

theorem initMaxModelSizeStep_le (cur : Nat) (c : List FlatLit) :
    initMaxModelSizeStep cur c ≤ cur := by
  unfold initMaxModelSizeStep
  split
  · exact le_refl _
  · split
    next hcond => omega
    · exact le_refl _

theorem foldl_initMaxModelSizeStep_le (cls : List (List FlatLit)) :
    ∀ cur, cls.foldl initMaxModelSizeStep cur ≤ cur := by
  induction cls with
  | nil => intro cur; simp
  | cons c t ih =>
    intro cur
    calc t.foldl initMaxModelSizeStep (initMaxModelSizeStep cur c)
        ≤ initMaxModelSizeStep cur c := ih _
      _ ≤ cur := initMaxModelSizeStep_le cur c

theorem varCnt_pos_of_posEqs (c : List FlatLit) (hne : c ≠ [])
    (hall : leadingPosEqs c = c.length) : 1 ≤ varCnt c := by
  cases c with
  | nil => exact absurd rfl hne
  | cons l t =>
    have hl : isPosTwoVarDistinct l = true := by
      by_contra hcon
      rw [Bool.not_eq_true] at hcon
      simp [leadingPosEqs, hcon] at hall
    cases l with
    | twoVarEq pol x y =>
      have hx : x ∈ clauseVars (FlatLit.twoVarEq pol x y :: t) := by
        simp [clauseVars, litVars]
      have : x ∈ (clauseVars (FlatLit.twoVarEq pol x y :: t)).dedup :=
        List.mem_dedup.mpr hx
      have hlen := List.length_pos.mpr (List.ne_nil_of_mem this)
      exact hlen
    | funEq pol f args r => simp [isPosTwoVarDistinct] at hl
    | pred pol p args => simp [isPosTwoVarDistinct] at hl

theorem foldl_le_of_mem :
    ∀ (cls : List (List FlatLit)) (cur : Nat) (c : List FlatLit), c ∈ cls →
      leadingPosEqs c = c.length → c ≠ [] →
      cls.foldl initMaxModelSizeStep cur ≤ varCnt c := by
  intro cls
  induction cls with
  | nil => intro cur c hc; simp at hc
  | cons d t ih =>
    intro cur c hc hall hne
    simp only [List.foldl_cons]
    rcases List.mem_cons.mp hc with rfl | hmem
    · have hstep : initMaxModelSizeStep cur c ≤ varCnt c := by
        unfold initMaxModelSizeStep
        have h0 : ¬ varCnt c = 0 := by
          have := varCnt_pos_of_posEqs c hne hall
          omega
        rw [if_neg h0]
        split
        next hcond => exact le_refl _
        next hcond =>
          push_neg at hcond
          have := hcond hall
          omega
      calc t.foldl initMaxModelSizeStep (initMaxModelSizeStep cur c)
          ≤ initMaxModelSizeStep cur c := foldl_initMaxModelSizeStep_le t _
        _ ≤ varCnt c := hstep
    · exact ih _ c hmem hall hne

theorem one_le_initMaxModelSize_aux :
    ∀ (cls : List (List FlatLit)) (cur : Nat), 1 ≤ cur →
      1 ≤ cls.foldl initMaxModelSizeStep cur := by
  intro cls
  induction cls with
  | nil => intro cur h; simpa
  | cons c t ih =>
    intro cur h
    refine ih _ ?_
    unfold initMaxModelSizeStep
    split
    · exact h
    · split
      next hcond => omega
      · exact h

theorem one_le_initMaxModelSize (cls : List (List FlatLit)) :
    1 ≤ initMaxModelSize cls := by
  have hU : (1 : Nat) ≤ UINT_MAX := by decide
  exact one_le_initMaxModelSize_aux cls UINT_MAX hU

theorem fmbLoop_refutation (p : FMBParams) (m : Nat) (hm : m < UINT_MAX)
    (ht : ∀ s, p.timeLimitReached s = false)
    (hs : ∀ s, p.satResult s ≠ .satisfiable)
    (hr : ∀ s, s ≤ m → reset p.sig s ≠ none) :
    ∀ fuel size, size < UINT_MAX → m < fuel + size → 1 ≤ fuel →
      fmbLoop p m fuel size = some .refutation := by
  intro fuel
  induction fuel with
  | zero => intro size _ _ h; omega
  | succ f ih =>
    intro size hsz hcnt _
    unfold fmbLoop
    rw [if_neg (by simp [ht size]), if_neg (hs size),
      if_neg (show ¬ size = UINT_MAX by omega)]
    by_cases hms : m ≤ size
    · rw [if_pos hms]
    · rw [if_neg hms]
      cases hre : reset p.sig (size + 1) with
      | none => exact absurd hre (hr (size + 1) (by omega))
      | some r => exact ih (size + 1) (by omega) (by omega) (by omega)

/-- C5: a non-ground clause consisting solely of positive two-variable
equalities between distinct variables bounds `_maxModelSize` by its
variable count after `init`, and a run in which the SAT solver never
answers SATISFIABLE terminates with REFUTATION once the size reaches the
bound (provided the offset computations in range succeed and the 32-bit
exits are not hit). -/
theorem c5_theorem (cls : List (List FlatLit)) (c : List FlatLit) (p : FMBParams)
    (hc : c ∈ cls) (hall : leadingPosEqs c = c.length) (hne : c ≠ [])
    (hib : p.initBound = initMaxModelSize cls) (hepr : p.isEPR = false)
    (hcomp : p.isComplete = true)
    (ht : ∀ s, p.timeLimitReached s = false)
    (hs : ∀ s, p.satResult s ≠ .satisfiable)
    (hk : varCnt c < UINT_MAX)
    (hr : ∀ s, s ≤ initMaxModelSize cls → reset p.sig s ≠ none) :
    initMaxModelSize cls ≤ varCnt c ∧ runImpl p = some .refutation := by
  have hle : initMaxModelSize cls ≤ varCnt c := foldl_le_of_mem cls UINT_MAX c hc hall hne
  refine ⟨hle, ?_⟩
  have hmm : maxModelSize p = initMaxModelSize cls := by
    unfold maxModelSize
    rw [hepr]
    simpa using hib
  unfold runImpl
  rw [if_neg (by simp [hcomp])]
  cases hre : reset p.sig 1 with
  | none => exact absurd hre (hr 1 (one_le_initMaxModelSize cls))
  | some r =>
    show fmbLoop p (maxModelSize p) UINT_MAX 1 = some .refutation
    rw [hmm]
    exact fmbLoop_refutation p (initMaxModelSize cls) (by omega) ht hs hr UINT_MAX 1
      (by decide) (by omega) (by decide)

/-- C5 witness: the single clause `x0 = x1` (positive two-variable
equality, 2 variables) over the empty signature, with a solver that
always answers UNSAT: the bound is 2 and the run refutes. -/
theorem c5_witness :
    initMaxModelSize [[.twoVarEq true 0 1]] ≤ varCnt [FlatLit.twoVarEq true 0 1] ∧
    runImpl ⟨⟨[], []⟩, true, false, 0, initMaxModelSize [[.twoVarEq true 0 1]],
      fun _ => .unsatisfiable, fun _ => false⟩ = some .refutation :=
  c5_theorem [[.twoVarEq true 0 1]] [FlatLit.twoVarEq true 0 1]
    ⟨⟨[], []⟩, true, false, 0, initMaxModelSize [[.twoVarEq true 0 1]],
      fun _ => .unsatisfiable, fun _ => false⟩
    (by decide) (by decide) (by decide) rfl rfl rfl (fun s => rfl)
    (fun s h => SatResult.noConfusion h)
    (by decide)
    (fun s _ h => by simp [reset, offsetLoop] at h)

end FMB

namespace SAT

/-- A SAT literal of the transparent solver: variable and polarity. -/
structure SATLit where
  var : Nat
  polarity : Bool
deriving DecidableEq, Repr

/-- `SATLiteral::opposite()`. -/
def SATLit.opposite (l : SATLit) : SATLit := ⟨l.var, !l.polarity⟩

/-- A SAT clause, as the list of its literals. -/
abbrev SATClause := List SATLit

/-- First literal of a clause — `(*cl)[0]`.  Only used on unit clauses,
which are nonempty. -/
def clHead (cl : SATClause) : SATLit := cl.headD ⟨0, true⟩

/-- `TransparentSolver::VarInfo`.  The constructor initialises `_unseen`,
`_unit` and `_hasAssumption`; `_isPure`, `_isPurePositive` and
`_assumedPolarity` are uninitialised in C++ but are only read after being
written (guarded by `_unseen` resp. `_hasAssumption`), so they get inert
defaults here.  The `_isRewritten`/`_root` fields are never set anywhere
in the implementation and are omitted. -/
structure VarInfo where
  unseen : Bool := true
  isPure : Bool := false
  isPurePositive : Bool := false
  unit : Option SATClause := none
  watched : List SATClause := []
  hasAssumption : Bool := false
  assumedPolarity : Bool := false
deriving DecidableEq, Repr

/-- Calls forwarded to the inner solver, newest first.  These are the
observable "stream of clauses and assumptions to the inner solver". -/
inductive InnerEvent where
  | addClauses (cls : List SATClause) (onlyPropagate : Bool)
  | addAssumption (lit : SATLit) (onlyPropagate : Bool)
  | retractAll
deriving DecidableEq, Repr

/-- State of a `TransparentSolver`: the per-variable info array, the two
local clause stacks, the recorded assumptions (newest first) and the
trace of calls made to the inner solver (newest first). -/
structure TSState where
  vars : Nat → VarInfo
  unprocessed : List SATClause
  toBeAdded : List SATClause
  assumptions : List SATLit
  inner : List InnerEvent

/-- Inner loop of `TransparentSolver::tryWatchOrSubsume` (lines 226-263):
scan the clause's literals; a literal on the forbidden variable is
skipped; a unit of equal polarity subsumes the clause; a unit of opposite
polarity skips the literal; an assumption of opposite polarity skips the
literal; an unseen variable becomes pure with the literal's polarity; a
pure variable of matching polarity watches the clause. -/
def twsGo (cl : SATClause) (forbiddenVar : Nat) :
    List SATLit → (Nat → VarInfo) → Bool × (Nat → VarInfo)
  | [], vars => (false, vars)
  | lit :: rest, vars =>
    if lit.var = forbiddenVar then twsGo cl forbiddenVar rest vars
    else
      match (vars lit.var).unit with
      | some u =>
        if lit.polarity = (clHead u).polarity then (true, vars)
        else twsGo cl forbiddenVar rest vars
      | none =>
        let vi := vars lit.var
        if vi.hasAssumption && !(vi.assumedPolarity = lit.polarity) then
          twsGo cl forbiddenVar rest vars
        else
          let vi1 := if vi.unseen then
            { vi with unseen := false, isPure := true, isPurePositive := lit.polarity }
            else vi
          if vi1.isPure && vi1.isPurePositive = lit.polarity then
            (true, Function.update vars lit.var { vi1 with watched := cl :: vi1.watched })
          else
            twsGo cl forbiddenVar rest (Function.update vars lit.var vi1)

/-- `TransparentSolver::tryWatchOrSubsume(cl, forbiddenVar)`; returns
whether the clause was watched or subsumed, together with the updated
variable array. -/
def tryWatchOrSubsume (cl : SATClause) (forbiddenVar : Nat) (vars : Nat → VarInfo) :
    Bool × (Nat → VarInfo) :=
  twsGo cl forbiddenVar cl vars

/-- The watched-clause sweep loop of `tryToSweepPure` (lines 200-213):
each watched clause is offered to `tryWatchOrSubsume` with the swept
variable forbidden; moved-out clauses are deleted from the watched list,
and in non-eager mode the first failure aborts the loop.  Returns
`(aborted, remaining watched list, vars)`. -/
def sweepLoopW (var : Nat) (eager : Bool) :
    List SATClause → List SATClause → (Nat → VarInfo) →
    Bool × List SATClause × (Nat → VarInfo)
  | [], kept, vars => (false, kept, vars)
  | cl :: rest, kept, vars =>
    let mv := tryWatchOrSubsume cl var vars
    if mv.1 then sweepLoopW var eager rest kept mv.2
    else if !eager then (true, kept ++ cl :: rest, mv.2)
    else sweepLoopW var eager rest (kept ++ [cl]) mv.2

/-- Final part of `tryToSweepPure` (lines 214-218): write the surviving
watched list back, and on success (nothing left watched, no unit — the
unit slot is untouched by sweeping, so the original value is passed in)
mark the variable unseen again. -/
def tswFinish (var : Nat) (origUnit : Option SATClause)
    (res : Bool × List SATClause × (Nat → VarInfo)) : Bool × (Nat → VarInfo) :=
  if res.1 then
    (false, Function.update res.2.2 var { res.2.2 var with watched := res.2.1 })
  else if res.2.1.isEmpty && origUnit.isNone then
    (true, Function.update res.2.2 var
      { res.2.2 var with watched := res.2.1, unseen := true })
  else
    (false, Function.update res.2.2 var { res.2.2 var with watched := res.2.1 })

/-- `TransparentSolver::tryToSweepPure(var, eager)` (lines 188-219): in
non-eager mode a unit aborts immediately; otherwise the watched clauses
are swept; the sweep succeeds, marking the variable unseen again, exactly
when no clause remains watched and the variable has no unit. -/
def tryToSweepPure (var : Nat) (eager : Bool) (vars : Nat → VarInfo) :
    Bool × (Nat → VarInfo) :=
  if !eager && (vars var).unit.isSome then (false, vars)
  else tswFinish var (vars var).unit (sweepLoopW var eager (vars var).watched [] vars)

/-- `TransparentSolver::makeVarNonPure` (lines 112-126).  The
`NEVER(tryToSweepPure(var, true))` executes the eager sweep and ignores
its boolean result (release semantics of the debug macro); the remaining
watched clauses are re-queued as unprocessed, the watched list is cleared
and the variable becomes impure. -/
def makeVarNonPure (var : Nat) (s : TSState) : TSState :=
  let vars1 := (tryToSweepPure var true s.vars).2
  let vi := vars1 var
  { s with
    unprocessed := vi.watched ++ s.unprocessed,
    vars := Function.update vars1 var ({ vi with watched := [], isPure := false }) }

/-- `TransparentSolver::processUnit` (lines 70-110). -/
def processUnit (cl : SATClause) (s : TSState) : TSState :=
  let lit := clHead cl
  let var := lit.var
  let vi := s.vars var
  match vi.unit with
  | some u =>
    if (clHead u).polarity = lit.polarity then s
    else { s with toBeAdded := cl :: s.toBeAdded }
  | none =>
    let s1 := { s with vars := Function.update s.vars var { vi with unit := some cl } }
    let s2 :=
      if !vi.unseen && vi.isPure then
        if vi.isPurePositive = lit.polarity then
          let vi2 := { s1.vars var with watched := ([] : List SATClause) }
          { s1 with vars := Function.update s1.vars var vi2 }
        else
          let sw := tryToSweepPure var false s1.vars
          if sw.1 then { s1 with vars := sw.2 }
          else makeVarNonPure var { s1 with vars := sw.2 }
      else s1
    let s3 :=
      if (s2.vars var).unseen then
        let vi3 := { s2.vars var with
          unseen := false, isPure := true, isPurePositive := lit.polarity }
        { s2 with vars := Function.update s2.vars var vi3 }
      else s2
    { s3 with toBeAdded := cl :: s3.toBeAdded }

/-- The per-literal retry loop of `processUnprocessed` (lines 154-169):
for each literal whose variable is pure, attempt a non-eager sweep; on
success re-offer the clause (`ALWAYS(tryWatchOrSubsume(cl))`, result
ignored) and stop with `fixed`; on failure record the variable for
un-puring.  Returns `(fixed, toUnpure stack, vars)`. -/
def sweepLits (cl : SATClause) :
    List SATLit → List Nat → (Nat → VarInfo) →
    Bool × List Nat × (Nat → VarInfo)
  | [], toUnpure, vars => (false, toUnpure, vars)
  | lit :: rest, toUnpure, vars =>
    if !(vars lit.var).isPure then sweepLits cl rest toUnpure vars
    else
      let sw := tryToSweepPure lit.var false vars
      if sw.1 then
        let rw := tryWatchOrSubsume cl 0 sw.2
        (true, toUnpure, rw.2)
      else sweepLits cl rest (lit.var :: toUnpure) sw.2

/-- `TransparentSolver::processUnprocessed` (lines 128-182), fuelled: the
queue is drained clause by clause; units go to `processUnit`; other
clauses are watched/subsumed if possible, then the sweep retry loop runs,
and if that fails too the clause is forwarded and the recorded variables
are made impure (re-queuing their watched clauses).  `none` means the
fuel ran out before the queue was empty. -/
def processUnprocessed : Nat → TSState → Option TSState
  | 0, s => if s.unprocessed.isEmpty then some s else none
  | fuel + 1, s =>
    match s.unprocessed with
    | [] => some s
    | cl :: rest =>
      let s0 := { s with unprocessed := rest }
      if cl.length = 1 then processUnprocessed fuel (processUnit cl s0)
      else
        let tw := tryWatchOrSubsume cl 0 s0.vars
        if tw.1 then processUnprocessed fuel { s0 with vars := tw.2 }
        else
          let sl := sweepLits cl cl [] s0.vars
          if sl.1 then processUnprocessed fuel { s0 with vars := sl.2.2 }
          else
            let s1 := { s0 with vars := sl.2.2, toBeAdded := cl :: s0.toBeAdded }
            processUnprocessed fuel (sl.2.1.foldl (fun st v => makeVarNonPure v st) s1)

/-- `TransparentSolver::flushClausesToInner` (lines 53-68): forward the
accumulated clauses to the inner solver and clear the stack. -/
def flushClausesToInner (onlyPropagate : Bool) (s : TSState) : TSState :=
  { s with inner := .addClauses s.toBeAdded onlyPropagate :: s.inner, toBeAdded := [] }

/-- `TransparentSolver::addClauses` (lines 30-51).  The entry assertions
(`_assumptions`, `_unprocessed`, `_toBeAdded` all empty) are debug-only
checks; the incoming clauses are queued, the queue is drained and the
forwarded clauses are flushed. -/
def addClauses (fuel : Nat) (cls : List SATClause) (onlyPropagate : Bool)
    (s : TSState) : Option TSState :=
  let s1 := { s with unprocessed := cls ++ s.unprocessed }
  (processUnprocessed fuel s1).map (flushClausesToInner onlyPropagate)

/-- `TransparentSolver::addInnerAssumption` (lines 289-295). -/
def addInnerAssumption (lit : SATLit) (onlyPropagate : Bool) (s : TSState) : TSState :=
  { s with inner := .addAssumption lit onlyPropagate :: s.inner }

/-- Status reported by the inner solver's `getStatus`. -/
inductive SolverStatus where
  | satisfiable | unsatisfiable | unknown
deriving DecidableEq, Repr

/-- Re-issuing the recorded assumptions bottom-first after a flush
(lines 348-353): every assumption but the last is forced to
`onlyPropagate`.  The argument list is in chronological order. -/
def reissueAssumptions (onlyPropagate : Bool) : List SATLit → TSState → TSState
  | [], s => s
  | [l], s => addInnerAssumption l onlyPropagate s
  | l :: l2 :: rest, s =>
    reissueAssumptions onlyPropagate (l2 :: rest) (addInnerAssumption l true s)

/-- `TransparentSolver::addAssumption` (lines 297-354).  The status of
the inner solver is abstracted by the oracle `innerStatus` applied to the
trace of calls made so far.  `none` means the internal
`processUnprocessed` ran out of fuel. -/
def addAssumption (innerStatus : List InnerEvent → SolverStatus) (fuel : Nat)
    (lit : SATLit) (onlyPropagate : Bool) (s : TSState) : Option TSState :=
  let var := lit.var
  let vi := s.vars var
  if vi.hasAssumption then
    if vi.assumedPolarity = lit.polarity then some s
    else some (addInnerAssumption lit true (addInnerAssumption lit.opposite true s))
  else
    let viA := { vi with hasAssumption := true, assumedPolarity := lit.polarity }
    let s1 := { s with
      assumptions := lit :: s.assumptions, vars := Function.update s.vars var viA }
    if innerStatus s1.inner = .unsatisfiable then some s1
    else if vi.unit.isSome || vi.unseen || !vi.isPure then
      some (addInnerAssumption lit onlyPropagate s1)
    else if vi.isPurePositive = lit.polarity then some s1
    else
      let sw := tryToSweepPure var false s1.vars
      if sw.1 then some (addInnerAssumption lit onlyPropagate { s1 with vars := sw.2 })
      else
        match processUnprocessed fuel (makeVarNonPure var { s1 with vars := sw.2 }) with
        | none => none
        | some s2 =>
          let s3 := flushClausesToInner true { s2 with inner := .retractAll :: s2.inner }
          some (reissueAssumptions onlyPropagate s3.assumptions.reverse s3)

/-- Literals assumed at the inner solver since its last `retractAll`
(trace is newest first). -/
def assumedSinceRetract : List InnerEvent → List SATLit
  | [] => []
  | .retractAll :: _ => []
  | .addAssumption l _ :: rest => l :: assumedSinceRetract rest
  | .addClauses _ _ :: rest => assumedSinceRetract rest

/-- A boolean valuation satisfies a SAT literal. -/
def litSat (v : Nat → Bool) (l : SATLit) : Bool := v l.var == l.polarity

theorem twsGo_forbidden (cl : SATClause) (fv : Nat) :
    ∀ (lits : List SATLit) (vars : Nat → VarInfo),
      ((twsGo cl fv lits vars).2) fv = vars fv := by
  intro lits
  induction lits with
  | nil => intro vars; rfl
  | cons lit rest ih =>
    intro vars
    unfold twsGo
    by_cases hv : lit.var = fv
    · rw [if_pos hv]; exact ih vars
    · rw [if_neg hv]
      have hne : fv ≠ lit.var := fun h => hv h.symm
      cases hu : (vars lit.var).unit with
      | some u =>
        dsimp only
        by_cases hp : lit.polarity = (clHead u).polarity
        · rw [if_pos hp]
        · rw [if_neg hp]; exact ih vars
      | none =>
        dsimp only
        split
        · exact ih vars
        · split <;> split <;>
            first
            | (dsimp only; rw [Function.update_noteq hne])
            | rw [ih _, Function.update_noteq hne]

theorem tryWatchOrSubsume_forbidden (cl : SATClause) (fv : Nat) (vars : Nat → VarInfo) :
    ((tryWatchOrSubsume cl fv vars).2) fv = vars fv :=
  twsGo_forbidden cl fv cl vars

theorem sweepLoopW_forbidden (v : Nat) (eager : Bool) :
    ∀ (pending kept : List SATClause) (vars : Nat → VarInfo),
      ((sweepLoopW v eager pending kept vars).2.2) v = vars v := by
  intro pending
  induction pending with
  | nil => intro kept vars; rfl
  | cons cl rest ih =>
    intro kept vars
    unfold sweepLoopW
    dsimp only
    split
    · rw [ih, tryWatchOrSubsume_forbidden]
    · split
      · exact tryWatchOrSubsume_forbidden cl v vars
      · rw [ih, tryWatchOrSubsume_forbidden]

theorem sweepLoopW_subset (v : Nat) (eager : Bool) :
    ∀ (pending kept : List SATClause) (vars : Nat → VarInfo) (c : SATClause),
      c ∈ (sweepLoopW v eager pending kept vars).2.1 → c ∈ kept ++ pending := by
  intro pending
  induction pending with
  | nil => intro kept vars c h; simpa using h
  | cons cl rest ih =>
    intro kept vars c h
    unfold sweepLoopW at h
    dsimp only at h
    split at h
    · have := ih _ _ _ h
      simp only [List.mem_append, List.mem_cons] at this ⊢
      tauto
    · split at h
      · exact h
      · have := ih _ _ _ h
        simp only [List.mem_append, List.mem_cons, List.mem_singleton] at this ⊢
        tauto

theorem tswFinish_succ (var : Nat) (origUnit : Option SATClause)
    (res : Bool × List SATClause × (Nat → VarInfo))
    (h : (tswFinish var origUnit res).1 = true) :
    (tswFinish var origUnit res).2 var =
      { res.2.2 var with watched := res.2.1, unseen := true } ∧
    res.2.1 = [] ∧ origUnit = none := by
  unfold tswFinish at h ⊢
  split at h
  · exact absurd h (by simp)
  · split at h
    next hcond =>
      rw [if_neg (by assumption), if_pos hcond]
      simp only [Bool.and_eq_true, List.isEmpty_iff, Option.isNone_iff_eq_none] at hcond
      exact ⟨Function.update_same _ _ _, hcond.1, hcond.2⟩
    · exact absurd h (by simp)

theorem tswFinish_watched (var : Nat) (origUnit : Option SATClause)
    (res : Bool × List SATClause × (Nat → VarInfo)) :
    ((tswFinish var origUnit res).2 var).watched = res.2.1 := by
  unfold tswFinish
  split
  · simp [Function.update_same]
  · split <;> simp [Function.update_same]

/-- C7: `tryWatchOrSubsume` with forbidden variable `v` never touches
`v`'s entry (in particular it never re-watches a clause on `v`), a
successful `tryToSweepPure(v, eager)` leaves `v` with an empty watched
list, no unit clause, and the unseen flag set, and the watched list of
the swept variable only ever shrinks (every clause still watched there
was watched before). -/
theorem c7_theorem (v : Nat) (eager : Bool) (vars : Nat → VarInfo) (cl : SATClause)
    (hsucc : (tryToSweepPure v eager vars).1 = true) :
    ((tryWatchOrSubsume cl v vars).2) v = vars v ∧
    (((tryToSweepPure v eager vars).2) v).watched = [] ∧
    (((tryToSweepPure v eager vars).2) v).unit = none ∧
    (((tryToSweepPure v eager vars).2) v).unseen = true ∧
    ∀ (w : Nat) (e2 : Bool) (c2 : SATClause),
      c2 ∈ (((tryToSweepPure w e2 vars).2) w).watched → c2 ∈ (vars w).watched := by
  refine ⟨tryWatchOrSubsume_forbidden cl v vars, ?_, ?_, ?_, ?_⟩
  · unfold tryToSweepPure at hsucc ⊢
    by_cases hc : (!eager && (vars v).unit.isSome) = true
    · rw [if_pos hc] at hsucc; exact absurd hsucc (by simp)
    · rw [if_neg hc] at hsucc ⊢
      obtain ⟨heq, hemp, hun⟩ := tswFinish_succ v ((vars v).unit) _ hsucc
      rw [heq]
      exact hemp
  · unfold tryToSweepPure at hsucc ⊢
    by_cases hc : (!eager && (vars v).unit.isSome) = true
    · rw [if_pos hc] at hsucc; exact absurd hsucc (by simp)
    · rw [if_neg hc] at hsucc ⊢
      obtain ⟨heq, hemp, hun⟩ := tswFinish_succ v ((vars v).unit) _ hsucc
      rw [heq]
      show ((sweepLoopW v eager (vars v).watched [] vars).2.2 v).unit = none
      rw [sweepLoopW_forbidden]
      exact hun
  · unfold tryToSweepPure at hsucc ⊢
    by_cases hc : (!eager && (vars v).unit.isSome) = true
    · rw [if_pos hc] at hsucc; exact absurd hsucc (by simp)
    · rw [if_neg hc] at hsucc ⊢
      obtain ⟨heq, hemp, hun⟩ := tswFinish_succ v ((vars v).unit) _ hsucc
      rw [heq]
  · intro w e2 c2 hmem
    unfold tryToSweepPure at hmem
    by_cases hc : (!e2 && (vars w).unit.isSome) = true
    · rw [if_pos hc] at hmem; exact hmem
    · rw [if_neg hc] at hmem
      rw [tswFinish_watched] at hmem
      have := sweepLoopW_subset w e2 ((vars w).watched) [] vars c2 hmem
      simpa using this

/-- Two variable arrays agreeing on the assumption data of every
variable. -/
def samePA (f g : Nat → VarInfo) : Prop :=
  ∀ v, (f v).hasAssumption = (g v).hasAssumption ∧
    (f v).assumedPolarity = (g v).assumedPolarity

theorem samePA_refl (f : Nat → VarInfo) : samePA f f := fun _ => ⟨rfl, rfl⟩

theorem samePA_trans {f g h : Nat → VarInfo} (h1 : samePA f g) (h2 : samePA g h) :
    samePA f h := fun v =>
  ⟨(h1 v).1.trans (h2 v).1, (h1 v).2.trans (h2 v).2⟩

theorem samePA_update {f : Nat → VarInfo} {a : Nat} {x : VarInfo}
    (h1 : x.hasAssumption = (f a).hasAssumption)
    (h2 : x.assumedPolarity = (f a).assumedPolarity) :
    samePA (Function.update f a x) f := by
  intro v
  by_cases hv : v = a
  · subst hv
    rw [Function.update_same]
    exact ⟨h1, h2⟩
  · rw [Function.update_noteq hv]
    exact ⟨rfl, rfl⟩

theorem twsGo_samePA (cl : SATClause) (fv : Nat) :
    ∀ (lits : List SATLit) (vars : Nat → VarInfo),
      samePA ((twsGo cl fv lits vars).2) vars := by
  intro lits
  induction lits with
  | nil => intro vars; exact samePA_refl vars
  | cons lit rest ih =>
    intro vars
    unfold twsGo
    by_cases hv : lit.var = fv
    · rw [if_pos hv]; exact ih vars
    · rw [if_neg hv]
      cases hu : (vars lit.var).unit with
      | some u =>
        dsimp only
        by_cases hp : lit.polarity = (clHead u).polarity
        · rw [if_pos hp]; exact samePA_refl vars
        · rw [if_neg hp]; exact ih vars
      | none =>
        dsimp only
        split
        · exact ih vars
        · split <;> split <;>
            first
            | (dsimp only
               exact samePA_update (by rfl) (by rfl))
            | exact samePA_trans (ih _) (samePA_update (by rfl) (by rfl))

theorem tryWatchOrSubsume_samePA (cl : SATClause) (fv : Nat) (vars : Nat → VarInfo) :
    samePA ((tryWatchOrSubsume cl fv vars).2) vars :=
  twsGo_samePA cl fv cl vars

theorem sweepLoopW_samePA (v : Nat) (eager : Bool) :
    ∀ (pending kept : List SATClause) (vars : Nat → VarInfo),
      samePA ((sweepLoopW v eager pending kept vars).2.2) vars := by
  intro pending
  induction pending with
  | nil => intro kept vars; exact samePA_refl vars
  | cons cl rest ih =>
    intro kept vars
    unfold sweepLoopW
    dsimp only
    split
    · exact samePA_trans (ih _ _) (tryWatchOrSubsume_samePA cl v vars)
    · split
      · exact tryWatchOrSubsume_samePA cl v vars
      · exact samePA_trans (ih _ _) (tryWatchOrSubsume_samePA cl v vars)

theorem tswFinish_samePA (var : Nat) (origUnit : Option SATClause)
    (res : Bool × List SATClause × (Nat → VarInfo)) :
    samePA ((tswFinish var origUnit res).2) res.2.2 := by
  unfold tswFinish
  split
  · exact samePA_update (by rfl) (by rfl)
  · split
    · exact samePA_update (by rfl) (by rfl)
    · exact samePA_update (by rfl) (by rfl)

theorem tryToSweepPure_samePA (var : Nat) (eager : Bool) (vars : Nat → VarInfo) :
    samePA ((tryToSweepPure var eager vars).2) vars := by
  unfold tryToSweepPure
  split
  · exact samePA_refl vars
  · exact samePA_trans (tswFinish_samePA _ _ _) (sweepLoopW_samePA _ _ _ _ _)

theorem makeVarNonPure_samePA (var : Nat) (s : TSState) :
    samePA ((makeVarNonPure var s).vars) s.vars ∧
    (makeVarNonPure var s).assumptions = s.assumptions ∧
    (makeVarNonPure var s).inner = s.inner ∧
    (makeVarNonPure var s).toBeAdded = s.toBeAdded := by
  refine ⟨?_, rfl, rfl, rfl⟩
  exact samePA_trans (samePA_update (by rfl) (by rfl)) (tryToSweepPure_samePA var true s.vars)

theorem processUnit_samePA (cl : SATClause) (s : TSState) :
    samePA ((processUnit cl s).vars) s.vars ∧
    (processUnit cl s).assumptions = s.assumptions ∧
    (processUnit cl s).inner = s.inner := by
  unfold processUnit
  dsimp only
  cases hu : (s.vars (clHead cl).var).unit with
  | some u =>
    dsimp only
    refine ⟨?_, ?_, ?_⟩ <;> split_ifs <;> first | exact samePA_refl _ | rfl
  | none =>
    dsimp only
    refine ⟨?_, ?_, ?_⟩ <;> split_ifs <;>
      first
      | rfl
      | exact samePA_update (by rfl) (by rfl)
      | exact samePA_trans (samePA_update (by rfl) (by rfl))
          (samePA_update (by rfl) (by rfl))
      | exact samePA_trans (samePA_update (by rfl) (by rfl))
          (samePA_trans (samePA_update (by rfl) (by rfl))
            (samePA_update (by rfl) (by rfl)))
      | exact samePA_trans (tryToSweepPure_samePA _ _ _)
          (samePA_update (by rfl) (by rfl))
      | exact samePA_trans (samePA_update (by rfl) (by rfl))
          (samePA_trans (tryToSweepPure_samePA _ _ _)
            (samePA_update (by rfl) (by rfl)))
      | exact samePA_trans (makeVarNonPure_samePA _ _).1
          (samePA_trans (tryToSweepPure_samePA _ _ _)
            (samePA_update (by rfl) (by rfl)))
      | exact samePA_trans (samePA_update (by rfl) (by rfl))
          (samePA_trans (makeVarNonPure_samePA _ _).1
            (samePA_trans (tryToSweepPure_samePA _ _ _)
              (samePA_update (by rfl) (by rfl))))

theorem sweepLits_samePA (cl : SATClause) :
    ∀ (lits : List SATLit) (toUnpure : List Nat) (vars : Nat → VarInfo),
      samePA ((sweepLits cl lits toUnpure vars).2.2) vars := by
  intro lits
  induction lits with
  | nil => intro toUnpure vars; exact samePA_refl vars
  | cons lit rest ih =>
    intro toUnpure vars
    unfold sweepLits
    dsimp only
    split
    · exact ih _ _
    · split
      · exact samePA_trans (tryWatchOrSubsume_samePA _ _ _) (tryToSweepPure_samePA _ _ _)
      · exact samePA_trans (ih _ _) (tryToSweepPure_samePA _ _ _)

theorem foldl_makeVarNonPure_samePA :
    ∀ (l : List Nat) (s : TSState),
      samePA ((l.foldl (fun st v => makeVarNonPure v st) s).vars) s.vars ∧
      (l.foldl (fun st v => makeVarNonPure v st) s).assumptions = s.assumptions ∧
      (l.foldl (fun st v => makeVarNonPure v st) s).inner = s.inner := by
  intro l
  induction l with
  | nil => intro s; exact ⟨samePA_refl _, rfl, rfl⟩
  | cons v t ih =>
    intro s
    simp only [List.foldl_cons]
    obtain ⟨ha, hb, hc⟩ := ih (makeVarNonPure v s)
    obtain ⟨ha2, hb2, hc2, _⟩ := makeVarNonPure_samePA v s
    exact ⟨samePA_trans ha ha2, hb.trans hb2, hc.trans hc2⟩

theorem processUnprocessed_samePA :
    ∀ (fuel : Nat) (s s' : TSState), processUnprocessed fuel s = some s' →
      samePA s'.vars s.vars ∧ s'.assumptions = s.assumptions ∧ s'.inner = s.inner := by
  intro fuel
  induction fuel with
  | zero =>
    intro s s' h
    unfold processUnprocessed at h
    split at h
    · simp only [Option.some.injEq] at h
      subst h
      exact ⟨samePA_refl _, rfl, rfl⟩
    · exact absurd h (by simp)
  | succ f ih =>
    intro s s' h
    unfold processUnprocessed at h
    split at h
    next hemp =>
      simp only [Option.some.injEq] at h
      subst h
      exact ⟨samePA_refl _, rfl, rfl⟩
    next cl rest hlist =>
      dsimp only at h
      split at h
      · obtain ⟨ha, hb, hc⟩ := ih _ _ h
        obtain ⟨ha2, hb2, hc2⟩ := processUnit_samePA cl { s with unprocessed := rest }
        exact ⟨samePA_trans ha ha2, hb.trans hb2, hc.trans hc2⟩
      · split at h
        · obtain ⟨ha, hb, hc⟩ := ih _ _ h
          exact ⟨samePA_trans ha (tryWatchOrSubsume_samePA _ _ _), hb, hc⟩
        · split at h
          · obtain ⟨ha, hb, hc⟩ := ih _ _ h
            exact ⟨samePA_trans ha (sweepLits_samePA _ _ _ _), hb, hc⟩
          · obtain ⟨ha, hb, hc⟩ := ih _ _ h
            refine ⟨samePA_trans ha
              (samePA_trans (foldl_makeVarNonPure_samePA _ _).1 (sweepLits_samePA _ _ _ _)),
              hb.trans (foldl_makeVarNonPure_samePA _ _).2.1,
              hc.trans (foldl_makeVarNonPure_samePA _ _).2.2⟩

theorem reissueAssumptions_vars (op : Bool) :
    ∀ (lits : List SATLit) (s : TSState),
      (reissueAssumptions op lits s).vars = s.vars := by
  intro lits
  induction lits with
  | nil => intro s; rfl
  | cons l rest ih =>
    intro s
    cases rest with
    | nil => rfl
    | cons l2 t => exact (ih _).trans rfl

/-- After a successful `addAssumption(lit)` call that entered through the
no-assumption-yet branch or found a matching assumption, the variable of
`lit` carries an assumption of `lit`'s polarity. -/
theorem addAssumption_sets (st : List InnerEvent → SolverStatus) (fuel : Nat)
    (lit : SATLit) (op : Bool) (s s' : TSState)
    (hna : ¬((s.vars lit.var).hasAssumption = true ∧
      ¬(s.vars lit.var).assumedPolarity = lit.polarity))
    (h : addAssumption st fuel lit op s = some s') :
    (s'.vars lit.var).hasAssumption = true ∧
    (s'.vars lit.var).assumedPolarity = lit.polarity := by
  unfold addAssumption at h
  by_cases hha : (s.vars lit.var).hasAssumption = true
  · rw [if_pos hha] at h
    have hpol : (s.vars lit.var).assumedPolarity = lit.polarity := by
      by_contra hcon
      exact hna ⟨hha, hcon⟩
    rw [if_pos hpol] at h
    simp only [Option.some.injEq] at h
    subst h
    exact ⟨hha, hpol⟩
  · rw [if_neg hha] at h
    dsimp only at h
    have hbase : ∀ g : Nat → VarInfo,
        samePA g (Function.update s.vars lit.var
          { s.vars lit.var with hasAssumption := true, assumedPolarity := lit.polarity }) →
        (g lit.var).hasAssumption = true ∧ (g lit.var).assumedPolarity = lit.polarity := by
      intro g hg
      obtain ⟨h1, h2⟩ := hg lit.var
      rw [h1, h2, Function.update_same]
      exact ⟨rfl, rfl⟩
    split at h
    · simp only [Option.some.injEq] at h
      subst h
      exact hbase _ (samePA_refl _)
    · split at h
      · simp only [Option.some.injEq] at h
        subst h
        exact hbase _ (samePA_refl _)
      · split at h
        · simp only [Option.some.injEq] at h
          subst h
          exact hbase _ (samePA_refl _)
        · split at h
          · simp only [Option.some.injEq] at h
            subst h
            exact hbase _ (tryToSweepPure_samePA _ _ _)
          · split at h
            · exact absurd h (by simp)
            next s2 hproc =>
              simp only [Option.some.injEq] at h
              subst h
              obtain ⟨ha, _, _⟩ := processUnprocessed_samePA _ _ _ hproc
              refine hbase _ ?_
              rw [reissueAssumptions_vars]
              exact samePA_trans ha
                (samePA_trans (makeVarNonPure_samePA _ _).1 (tryToSweepPure_samePA _ _ _))

/-- C6 (amended, part of original claim refuted): `add_assumption(L)` is
observationally idempotent on every state in which `L`'s variable does
not already carry an assumption of the opposite polarity — the second
call returns the state (including the inner-solver call stream)
unchanged.  When the variable does carry the opposite assumed polarity,
each call sends the contradictory pair `¬L, L` to the inner solver,
whose assumption set then has no satisfying valuation (an immediately
UNSATISFIABLE state). -/
theorem c6_amended (st : List InnerEvent → SolverStatus) (fuel fuel2 : Nat)
    (lit : SATLit) (op : Bool) (s : TSState) :
    (¬((s.vars lit.var).hasAssumption = true ∧
        ¬(s.vars lit.var).assumedPolarity = lit.polarity) →
      ∀ s', addAssumption st fuel lit op s = some s' →
        addAssumption st fuel2 lit op s' = some s') ∧
    ((s.vars lit.var).hasAssumption = true →
      ¬(s.vars lit.var).assumedPolarity = lit.polarity →
      addAssumption st fuel lit op s =
        some (addInnerAssumption lit true (addInnerAssumption lit.opposite true s)) ∧
      lit ∈ assumedSinceRetract
        (addInnerAssumption lit true (addInnerAssumption lit.opposite true s)).inner ∧
      lit.opposite ∈ assumedSinceRetract
        (addInnerAssumption lit true (addInnerAssumption lit.opposite true s)).inner ∧
      ∀ v : Nat → Bool,
        ¬ ∀ l ∈ assumedSinceRetract
            (addInnerAssumption lit true (addInnerAssumption lit.opposite true s)).inner,
          litSat v l = true) := by
  constructor
  · intro hna s' h
    obtain ⟨h1, h2⟩ := addAssumption_sets st fuel lit op s s' hna h
    unfold addAssumption
    rw [if_pos h1, if_pos h2]
  · intro hha hpol
    refine ⟨?_, ?_, ?_, ?_⟩
    · unfold addAssumption
      rw [if_pos hha, if_neg hpol]
    · simp [addInnerAssumption, assumedSinceRetract]
    · simp [addInnerAssumption, assumedSinceRetract]
    · intro v hall
      have hl := hall lit (by simp [addInnerAssumption, assumedSinceRetract])
      have hr := hall lit.opposite (by simp [addInnerAssumption, assumedSinceRetract])
      simp only [litSat, SATLit.opposite, beq_iff_eq] at hl hr
      rw [hl] at hr
      cases lit.polarity <;> simp at hr

/-- Concrete state for the C6 scenario: variable 1 already carries a
negative assumption. -/
def s6c : TSState :=
  ⟨fun v => if v = 1 then
      { unseen := false, hasAssumption := true, assumedPolarity := false }
    else {}, [], [], [⟨1, false⟩], []⟩

/-- C6: the claim asserts idempotence for *every* state, observing among
other things "the same stream of clauses and assumptions to the inner
solver".  On a state whose variable already carries the opposite assumed
polarity, one call to `add_assumption(v1⁺)` sends two inner assumptions,
and a second call sends two more: the streams after one and after two
calls differ, so the two executions are observationally distinct. -/
theorem c6_counterexample :
    ((addAssumption (fun _ => .unknown) 10 ⟨1, true⟩ false s6c).map (fun t => t.inner)) =
      some [.addAssumption ⟨1, true⟩ true, .addAssumption ⟨1, false⟩ true] ∧
    (((addAssumption (fun _ => .unknown) 10 ⟨1, true⟩ false s6c).bind
        (addAssumption (fun _ => .unknown) 10 ⟨1, true⟩ false)).map (fun t => t.inner)) =
      some [.addAssumption ⟨1, true⟩ true, .addAssumption ⟨1, false⟩ true,
        .addAssumption ⟨1, true⟩ true, .addAssumption ⟨1, false⟩ true] ∧
    ([InnerEvent.addAssumption ⟨1, true⟩ true, .addAssumption ⟨1, false⟩ true] ≠
      [.addAssumption ⟨1, true⟩ true, .addAssumption ⟨1, false⟩ true,
       .addAssumption ⟨1, true⟩ true, .addAssumption ⟨1, false⟩ true]) := by
  refine ⟨by decide, by decide, by decide⟩

/-- C6 witness: both parts of the amended statement evaluated at
concrete states: the fresh-variable state (idempotence) and the
contradicting state `s6c`. -/
theorem c6_witness :
    (addAssumption (fun _ => .unknown) 5 ⟨2, true⟩ false
        ⟨fun _ => {}, [], [], [], []⟩ =
      some (addInnerAssumption ⟨2, true⟩ false
        ⟨Function.update (fun _ => ({} : VarInfo)) 2
          { ({} : VarInfo) with hasAssumption := true, assumedPolarity := true },
          [], [], [⟨2, true⟩], []⟩) →
     addAssumption (fun _ => .unknown) 7 ⟨2, true⟩ false
        (addInnerAssumption ⟨2, true⟩ false
          ⟨Function.update (fun _ => ({} : VarInfo)) 2
            { ({} : VarInfo) with hasAssumption := true, assumedPolarity := true },
            [], [], [⟨2, true⟩], []⟩) =
      some (addInnerAssumption ⟨2, true⟩ false
        ⟨Function.update (fun _ => ({} : VarInfo)) 2
          { ({} : VarInfo) with hasAssumption := true, assumedPolarity := true },
          [], [], [⟨2, true⟩], []⟩)) ∧
    (addAssumption (fun _ => .unknown) 10 ⟨1, true⟩ false s6c =
      some (addInnerAssumption ⟨1, true⟩ true
        (addInnerAssumption (SATLit.opposite ⟨1, true⟩) true s6c))) := by
  constructor
  · exact fun h => (c6_amended (fun _ => .unknown) 5 7 ⟨2, true⟩ false
      ⟨fun _ => {}, [], [], [], []⟩).1 (by decide) _ h
  · exact ((c6_amended (fun _ => .unknown) 10 10 ⟨1, true⟩ false s6c).2
      (by decide) (by decide)).1

/-- C7 witness: variable 3 is pure positive with a single watched clause
that can be re-homed onto variable 4; the non-eager sweep succeeds. -/
theorem c7_witness :
    ((tryWatchOrSubsume [⟨3, true⟩] 3
        (fun v => if v = 3 then ⟨false, true, true, none, [[⟨3, true⟩, ⟨4, true⟩]], false, false⟩
          else {})).2) 3 =
      (fun v : Nat => if v = 3 then
          (⟨false, true, true, none, [[⟨3, true⟩, ⟨4, true⟩]], false, false⟩ : VarInfo)
        else {}) 3 ∧
    (((tryToSweepPure 3 false
        (fun v => if v = 3 then ⟨false, true, true, none, [[⟨3, true⟩, ⟨4, true⟩]], false, false⟩
          else {})).2) 3).watched = [] ∧
    (((tryToSweepPure 3 false
        (fun v => if v = 3 then ⟨false, true, true, none, [[⟨3, true⟩, ⟨4, true⟩]], false, false⟩
          else {})).2) 3).unit = none ∧
    (((tryToSweepPure 3 false
        (fun v => if v = 3 then ⟨false, true, true, none, [[⟨3, true⟩, ⟨4, true⟩]], false, false⟩
          else {})).2) 3).unseen = true ∧
    ∀ (w : Nat) (e2 : Bool) (c2 : SATClause),
      c2 ∈ (((tryToSweepPure w e2
        (fun v => if v = 3 then ⟨false, true, true, none, [[⟨3, true⟩, ⟨4, true⟩]], false, false⟩
          else {})).2) w).watched →
      c2 ∈ ((fun v : Nat => if v = 3 then
          (⟨false, true, true, none, [[⟨3, true⟩, ⟨4, true⟩]], false, false⟩ : VarInfo)
        else {}) w).watched :=
  c7_theorem 3 false
    (fun v => if v = 3 then ⟨false, true, true, none, [[⟨3, true⟩, ⟨4, true⟩]], false, false⟩
      else {})
    [⟨3, true⟩] (by decide)

/-- Every literal of the clause is on a proper SAT variable (`0` is the
sentinel value of `forbiddenVar` and never a real variable). -/
def l0free (c : SATClause) : Prop := ∀ l ∈ c, l.var ≠ 0

/-- The clause has a literal whose variable holds a unit of the same
polarity: the clause is subsumed by that unit. -/
def subsumedByUnit (vars : Nat → VarInfo) (c : SATClause) : Prop :=
  ∃ l ∈ c, ∃ u, (vars l.var).unit = some u ∧ (clHead u).polarity = l.polarity

/-- Structural invariants of the variable array: an unseen variable
watches nothing, and every watched clause contains a literal of the
watching variable with its pure polarity and is variable-0-free. -/
def goodVarsW (vars : Nat → VarInfo) : Prop :=
  ∀ v, ((vars v).unseen = true → (vars v).watched = []) ∧
    ∀ c ∈ (vars v).watched,
      (∃ l, l ∈ c ∧ l.var = v ∧ l.polarity = (vars v).isPurePositive) ∧ l0free c

/-- No variable carries an assumption. -/
def noAssumpV (vars : Nat → VarInfo) : Prop := ∀ v, (vars v).hasAssumption = false

theorem subsumedByUnit_of_unit_eq {f g : Nat → VarInfo} {c : SATClause}
    (hu : ∀ v, (g v).unit = (f v).unit) (h : subsumedByUnit f c) :
    subsumedByUnit g c := by
  obtain ⟨l, hl, u, hul, hp⟩ := h
  exact ⟨l, hl, u, (hu l.var).trans hul, hp⟩

theorem noAssumpV_of_samePA {f g : Nat → VarInfo} (h : samePA g f)
    (hf : noAssumpV f) : noAssumpV g := fun v => ((h v).1).trans (hf v)

theorem twsGo_main (cl : SATClause) (fv : Nat) (hcl : l0free cl) :
    ∀ (lits : List SATLit) (vars : Nat → VarInfo), (∀ l ∈ lits, l ∈ cl) →
      goodVarsW vars →
      goodVarsW ((twsGo cl fv lits vars).2) ∧
      (∀ v, (((twsGo cl fv lits vars).2) v).unit = (vars v).unit) ∧
      (∀ v c, c ∈ (vars v).watched → c ∈ (((twsGo cl fv lits vars).2) v).watched) ∧
      ((twsGo cl fv lits vars).1 = true →
        (∃ v, ¬v = fv ∧ cl ∈ (((twsGo cl fv lits vars).2) v).watched) ∨
        subsumedByUnit ((twsGo cl fv lits vars).2) cl) := by
  intro lits
  induction lits with
  | nil =>
    intro vars hsub hgood
    exact ⟨hgood, fun _ => rfl, fun _ _ h => h, fun h => absurd h (by simp [twsGo])⟩
  | cons lit rest ih =>
    intro vars hsub hgood
    have hlit : lit ∈ cl := hsub lit (by simp)
    have hrest : ∀ l ∈ rest, l ∈ cl := fun l hl => hsub l (by simp [hl])
    unfold twsGo
    by_cases hv : lit.var = fv
    · rw [if_pos hv]; exact ih vars hrest hgood
    · rw [if_neg hv]
      cases hu : (vars lit.var).unit with
      | some u =>
        dsimp only
        by_cases hp : lit.polarity = (clHead u).polarity
        · rw [if_pos hp]
          exact ⟨hgood, fun _ => rfl, fun _ _ h => h,
            fun _ => Or.inr ⟨lit, hlit, u, hu, hp.symm⟩⟩
        · rw [if_neg hp]; exact ih vars hrest hgood
      | none =>
        dsimp only
        split
        · exact ih vars hrest hgood
        · by_cases hun : (vars lit.var).unseen = true
          · rw [if_pos hun]
            have hwemp : (vars lit.var).watched = [] := (hgood lit.var).1 hun
            dsimp only
            rw [if_pos (by simp)]
            dsimp only
            refine ⟨?_, ?_, ?_, ?_⟩
            · intro w
              by_cases hw : w = lit.var
              · subst hw
                rw [Function.update_same]
                refine ⟨by simp, ?_⟩
                intro c hc
                rw [hwemp] at hc
                simp only [List.mem_cons, List.not_mem_nil, or_false] at hc
                subst hc
                exact ⟨⟨lit, hlit, rfl, rfl⟩, hcl⟩
              · rw [Function.update_noteq hw]; exact hgood w
            · intro w
              by_cases hw : w = lit.var
              · subst hw; rw [Function.update_same]
              · rw [Function.update_noteq hw]
            · intro w c hc
              by_cases hw : w = lit.var
              · subst hw
                rw [Function.update_same]
                simp only [List.mem_cons]
                exact Or.inr hc
              · rw [Function.update_noteq hw]; exact hc
            · intro _
              refine Or.inl ⟨lit.var, hv, ?_⟩
              rw [Function.update_same]
              simp
          · rw [if_neg hun]
            by_cases hpm : ((vars lit.var).isPure &&
                decide ((vars lit.var).isPurePositive = lit.polarity)) = true
            · rw [if_pos hpm]
              simp only [Bool.and_eq_true, decide_eq_true_eq] at hpm
              dsimp only
              refine ⟨?_, ?_, ?_, ?_⟩
              · intro w
                by_cases hw : w = lit.var
                · subst hw
                  rw [Function.update_same]
                  refine ⟨by simp [hun], ?_⟩
                  intro c hc
                  simp only [List.mem_cons] at hc
                  cases hc with
                  | inl hc => subst hc; exact ⟨⟨lit, hlit, rfl, hpm.2.symm⟩, hcl⟩
                  | inr hc => exact (hgood lit.var).2 c hc
                · rw [Function.update_noteq hw]; exact hgood w
              · intro w
                by_cases hw : w = lit.var
                · subst hw; rw [Function.update_same]
                · rw [Function.update_noteq hw]
              · intro w c hc
                by_cases hw : w = lit.var
                · subst hw
                  rw [Function.update_same]
                  simp only [List.mem_cons]
                  exact Or.inr hc
                · rw [Function.update_noteq hw]; exact hc
              · intro _
                refine Or.inl ⟨lit.var, hv, ?_⟩
                rw [Function.update_same]
                simp
            · rw [if_neg hpm, Function.update_eq_self]
              exact ih vars hrest hgood

theorem twsGo_place (cl : SATClause) :
    ∀ (lits : List SATLit) (vars : Nat → VarInfo),
      (∃ l ∈ lits, ¬l.var = 0 ∧ (vars l.var).unseen = true ∧
        (vars l.var).unit = none ∧ (vars l.var).hasAssumption = false) →
      (twsGo cl 0 lits vars).1 = true := by
  intro lits
  induction lits with
  | nil => intro vars h; simp at h
  | cons lit rest ih =>
    intro vars h
    obtain ⟨l, hl, hl0, hlun, hlu, hla⟩ := h
    unfold twsGo
    by_cases hv : lit.var = 0
    · rw [if_pos hv]
      refine ih vars ⟨l, ?_, hl0, hlun, hlu, hla⟩
      rcases List.mem_cons.mp hl with rfl | hmem
      · exact absurd hv hl0
      · exact hmem
    · rw [if_neg hv]
      cases hu : (vars lit.var).unit with
      | some u =>
        dsimp only
        by_cases hp : lit.polarity = (clHead u).polarity
        · rw [if_pos hp]
        · rw [if_neg hp]
          refine ih vars ⟨l, ?_, hl0, hlun, hlu, hla⟩
          rcases List.mem_cons.mp hl with rfl | hmem
          · rw [hlu] at hu; exact absurd hu (by simp)
          · exact hmem
      | none =>
        dsimp only
        split
        next hassump =>
          refine ih vars ⟨l, ?_, hl0, hlun, hlu, hla⟩
          rcases List.mem_cons.mp hl with rfl | hmem
          · rw [hla] at hassump; simp at hassump
          · exact hmem
        · by_cases hun : (vars lit.var).unseen = true
          · rw [if_pos hun]
            dsimp only
            rw [if_pos (by simp)]
          · rw [if_neg hun]
            by_cases hpm : ((vars lit.var).isPure &&
                decide ((vars lit.var).isPurePositive = lit.polarity)) = true
            · rw [if_pos hpm]
            · rw [if_neg hpm, Function.update_eq_self]
              refine ih vars ⟨l, ?_, hl0, hlun, hlu, hla⟩
              rcases List.mem_cons.mp hl with rfl | hmem
              · rw [hlun] at hun; simp at hun
              · exact hmem

/-- A clause is accounted for in a solver state: still queued, about to
be forwarded, parked in some watched list, or subsumed by a unit. -/
def placedV (s : TSState) (c : SATClause) : Prop :=
  c ∈ s.unprocessed ∨ c ∈ s.toBeAdded ∨
    (∃ v, c ∈ (s.vars v).watched) ∨ subsumedByUnit s.vars c

theorem sweepLoopW_main (var : Nat) (eager : Bool) :
    ∀ (pending kept : List SATClause) (vars : Nat → VarInfo),
      (∀ c ∈ pending, l0free c) → goodVarsW vars →
      goodVarsW ((sweepLoopW var eager pending kept vars).2.2) ∧
      (∀ w, (((sweepLoopW var eager pending kept vars).2.2) w).unit = (vars w).unit) ∧
      (∀ w c, c ∈ (vars w).watched →
        c ∈ (((sweepLoopW var eager pending kept vars).2.2) w).watched) ∧
      (∀ c ∈ pending, c ∈ (sweepLoopW var eager pending kept vars).2.1 ∨
        (∃ w, ¬w = var ∧ c ∈ (((sweepLoopW var eager pending kept vars).2.2) w).watched) ∨
        subsumedByUnit ((sweepLoopW var eager pending kept vars).2.2) c) ∧
      (∀ c ∈ kept, c ∈ (sweepLoopW var eager pending kept vars).2.1) := by
  intro pending
  induction pending with
  | nil =>
    intro kept vars hpf hgood
    exact ⟨hgood, fun _ => rfl, fun _ _ h => h, by simp, fun c h => h⟩
  | cons cl rest ih =>
    intro kept vars hpf hgood
    have hclf : l0free cl := hpf cl (by simp)
    have hrf : ∀ c ∈ rest, l0free c := fun c hc => hpf c (by simp [hc])
    obtain ⟨g1, g2, g3, g4⟩ := twsGo_main cl var hclf cl vars (fun l hl => hl) hgood
    unfold sweepLoopW
    dsimp only
    split
    next hmv =>
      obtain ⟨i1, i2, i3, i4, i5⟩ := ih kept _ hrf g1
      refine ⟨i1, fun w => (i2 w).trans (g2 w), fun w c hc => i3 w c (g3 w c hc), ?_, i5⟩
      intro c hc
      rcases List.mem_cons.mp hc with rfl | hcr
      · rcases g4 hmv with ⟨w, hw, hcw⟩ | hsub
        · exact Or.inr (Or.inl ⟨w, hw, i3 w c hcw⟩)
        · exact Or.inr (Or.inr (subsumedByUnit_of_unit_eq i2 hsub))
      · exact i4 c hcr
    · split
      · refine ⟨g1, g2, g3, ?_, ?_⟩
        · intro c hc
          refine Or.inl ?_
          simp only [List.mem_append, List.mem_cons]
          simp only [List.mem_cons] at hc
          tauto
        · intro c hc
          simp [hc]
      next hne =>
        obtain ⟨i1, i2, i3, i4, i5⟩ := ih (kept ++ [cl]) _ hrf g1
        refine ⟨i1, fun w => (i2 w).trans (g2 w), fun w c hc => i3 w c (g3 w c hc), ?_, ?_⟩
        · intro c hc
          rcases List.mem_cons.mp hc with rfl | hcr
          · exact Or.inl (i5 c (by simp))
          · exact i4 c hcr
        · intro c hc
          exact i5 c (by simp [hc])

theorem tswFinish_noteq (var : Nat) (origUnit : Option SATClause)
    (res : Bool × List SATClause × (Nat → VarInfo)) (w : Nat) (hw : ¬w = var) :
    ((tswFinish var origUnit res).2) w = res.2.2 w := by
  unfold tswFinish
  split
  · exact Function.update_noteq hw _ _
  · split
    · exact Function.update_noteq hw _ _
    · exact Function.update_noteq hw _ _

theorem tswFinish_var_unit (var : Nat) (origUnit : Option SATClause)
    (res : Bool × List SATClause × (Nat → VarInfo)) :
    (((tswFinish var origUnit res).2) var).unit = (res.2.2 var).unit := by
  unfold tswFinish
  split
  · simp [Function.update_same]
  · split <;> simp [Function.update_same]

theorem tswFinish_var_isPurePositive (var : Nat) (origUnit : Option SATClause)
    (res : Bool × List SATClause × (Nat → VarInfo)) :
    (((tswFinish var origUnit res).2) var).isPurePositive = (res.2.2 var).isPurePositive := by
  unfold tswFinish
  split
  · simp [Function.update_same]
  · split <;> simp [Function.update_same]

theorem tswFinish_var_unseen (var : Nat) (origUnit : Option SATClause)
    (res : Bool × List SATClause × (Nat → VarInfo)) :
    (((tswFinish var origUnit res).2) var).unseen = true →
      (res.2.2 var).unseen = true ∨ res.2.1 = [] := by
  unfold tswFinish
  split
  · intro h
    simp only [Function.update_same] at h
    exact Or.inl h
  · split
    next hcond =>
      intro _
      simp only [Bool.and_eq_true, List.isEmpty_iff, Option.isNone_iff_eq_none] at hcond
      exact Or.inr hcond.1
    · intro h
      simp only [Function.update_same] at h
      exact Or.inl h

/-- Success postcondition of `tryToSweepPure`, shared between several
results. -/
theorem tryToSweepPure_succ (var : Nat) (eager : Bool) (vars : Nat → VarInfo)
    (hsucc : (tryToSweepPure var eager vars).1 = true) :
    (((tryToSweepPure var eager vars).2) var).watched = [] ∧
    (((tryToSweepPure var eager vars).2) var).unit = none ∧
    (((tryToSweepPure var eager vars).2) var).unseen = true := by
  unfold tryToSweepPure at hsucc ⊢
  by_cases hc : (!eager && (vars var).unit.isSome) = true
  · rw [if_pos hc] at hsucc; exact absurd hsucc (by simp)
  · rw [if_neg hc] at hsucc ⊢
    obtain ⟨heq, hemp, hun⟩ := tswFinish_succ var ((vars var).unit) _ hsucc
    rw [heq]
    refine ⟨hemp, ?_, rfl⟩
    show ((sweepLoopW var eager (vars var).watched [] vars).2.2 var).unit = none
    rw [sweepLoopW_forbidden]
    exact hun

theorem tryToSweepPure_main (var : Nat) (eager : Bool) (vars : Nat → VarInfo)
    (hgood : goodVarsW vars) :
    goodVarsW ((tryToSweepPure var eager vars).2) ∧
    (∀ w, (((tryToSweepPure var eager vars).2) w).unit = (vars w).unit) ∧
    (∀ w c, ¬w = var → c ∈ (vars w).watched →
      c ∈ (((tryToSweepPure var eager vars).2) w).watched) ∧
    (∀ c ∈ (vars var).watched,
      c ∈ (((tryToSweepPure var eager vars).2) var).watched ∨
      (∃ w, ¬w = var ∧ c ∈ (((tryToSweepPure var eager vars).2) w).watched) ∨
      subsumedByUnit ((tryToSweepPure var eager vars).2) c) := by
  unfold tryToSweepPure
  split
  · exact ⟨hgood, fun _ => rfl, fun _ c _ h => h, fun c hc => Or.inl hc⟩
  · have hpf : ∀ c ∈ (vars var).watched, l0free c :=
      fun c hc => ((hgood var).2 c hc).2
    obtain ⟨s1, s2, s3, s4, s5⟩ := sweepLoopW_main var eager ((vars var).watched) [] vars hpf hgood
    have hfv : (sweepLoopW var eager ((vars var).watched) [] vars).2.2 var = vars var :=
      sweepLoopW_forbidden var eager ((vars var).watched) [] vars
    have hrem : ∀ c ∈ (sweepLoopW var eager ((vars var).watched) [] vars).2.1,
        c ∈ (vars var).watched := by
      intro c hc
      simpa using sweepLoopW_subset var eager ((vars var).watched) [] vars c hc
    refine ⟨?_, ?_, ?_, ?_⟩
    · intro w
      by_cases hw : w = var
      · subst hw
        constructor
        · intro hunseen
          rcases tswFinish_var_unseen w ((vars w).unit) _ hunseen with hseen | hempr
          · rw [hfv] at hseen
            have hwe : (vars w).watched = [] := (hgood w).1 hseen
            rw [tswFinish_watched, hwe]
            rfl
          · rw [tswFinish_watched]
            exact hempr
        · intro c hc
          rw [tswFinish_watched] at hc
          have hcw := hrem c hc
          obtain ⟨⟨l, hlc, hlv, hlp⟩, hfree⟩ := (hgood w).2 c hcw
          refine ⟨⟨l, hlc, hlv, ?_⟩, hfree⟩
          rw [tswFinish_var_isPurePositive, hfv]
          exact hlp
      · rw [tswFinish_noteq _ _ _ w hw]
        exact s1 w
    · intro w
      by_cases hw : w = var
      · subst hw
        rw [tswFinish_var_unit, hfv]
      · rw [tswFinish_noteq _ _ _ w hw]
        exact s2 w
    · intro w c hw hc
      rw [tswFinish_noteq _ _ _ w hw]
      exact s3 w c hc
    · intro c hc
      rcases s4 c hc with hin | ⟨w, hwv, hcw⟩ | hsub
      · refine Or.inl ?_
        rw [tswFinish_watched]
        exact hin
      · refine Or.inr (Or.inl ⟨w, hwv, ?_⟩)
        rw [tswFinish_noteq _ _ _ w hwv]
        exact hcw
      · refine Or.inr (Or.inr ?_)
        refine subsumedByUnit_of_unit_eq ?_ hsub
        intro v
        by_cases hv : v = var
        · subst hv; rw [tswFinish_var_unit]
        · rw [tswFinish_noteq _ _ _ v hv]

theorem clHead_mem (cl : SATClause) (h : cl ≠ []) : clHead cl ∈ cl := by
  cases cl with
  | nil => exact absurd rfl h
  | cons l t => simp [clHead]

theorem goodVarsW_update_keep (vars : Nat → VarInfo) (v : Nat) (x : VarInfo)
    (hgood : goodVarsW vars)
    (hw : x.watched = (vars v).watched) (hp : x.isPurePositive = (vars v).isPurePositive)
    (hun : x.unseen = (vars v).unseen) :
    goodVarsW (Function.update vars v x) := by
  intro w
  by_cases hv : w = v
  · subst hv
    rw [Function.update_same, hw, hp, hun]
    exact hgood w
  · rw [Function.update_noteq hv]
    exact hgood w

theorem goodVarsW_update_emptyWatched (vars : Nat → VarInfo) (v : Nat) (x : VarInfo)
    (hgood : goodVarsW vars) (hw : x.watched = []) :
    goodVarsW (Function.update vars v x) := by
  intro w
  by_cases hv : w = v
  · subst hv
    rw [Function.update_same, hw]
    exact ⟨fun _ => rfl, by simp⟩
  · rw [Function.update_noteq hv]
    exact hgood w

theorem makeVarNonPure_main (var : Nat) (s : TSState) (hgood : goodVarsW s.vars)
    (hupf : ∀ c ∈ s.unprocessed, l0free c) :
    goodVarsW ((makeVarNonPure var s).vars) ∧
    (∀ w, (((makeVarNonPure var s).vars) w).unit = (s.vars w).unit) ∧
    (∀ c ∈ (makeVarNonPure var s).unprocessed, l0free c) ∧
    (∀ c, placedV s c → placedV (makeVarNonPure var s) c) ∧
    (makeVarNonPure var s).toBeAdded = s.toBeAdded := by
  obtain ⟨t1, t2, t3, t4⟩ := tryToSweepPure_main var true s.vars hgood
  unfold makeVarNonPure
  dsimp only
  refine ⟨?_, ?_, ?_, ?_, rfl⟩
  · exact goodVarsW_update_emptyWatched _ _ _ t1 rfl
  · intro w
    by_cases hv : w = var
    · rw [hv, Function.update_same]
      exact t2 var
    · rw [Function.update_noteq hv]
      exact t2 w
  · intro c hc
    simp only [List.mem_append] at hc
    rcases hc with hc | hc
    · exact ((t1 var).2 c hc).2
    · exact hupf c hc
  · intro c hc
    unfold placedV at hc ⊢
    dsimp only
    rcases hc with hc | hc | ⟨w, hc⟩ | hsub
    · left
      simp [hc]
    · right; left
      exact hc
    · by_cases hv : w = var
      · rw [hv] at hc
        rcases t4 c hc with hin | ⟨w2, hw2, hcw⟩ | hsub2
        · left
          simp [hin]
        · right; right; left
          refine ⟨w2, ?_⟩
          rw [Function.update_noteq hw2]
          exact hcw
        · right; right; right
          refine subsumedByUnit_of_unit_eq ?_ hsub2
          intro v
          by_cases hveq : v = var
          · rw [hveq, Function.update_same]
          · rw [Function.update_noteq hveq]
      · right; right; left
        exact ⟨w, by rw [Function.update_noteq hv]; exact t3 w c hv hc⟩
    · right; right; right
      refine subsumedByUnit_of_unit_eq ?_ hsub
      intro v
      by_cases hveq : v = var
      · rw [hveq, Function.update_same]
        exact t2 var
      · rw [Function.update_noteq hveq]
        exact t2 v

/-- Intermediate-state contract used while walking `processUnit`'s
branches: the variable array stays well-formed, units are only ever
added, queued clauses stay variable-0-free and placement is preserved. -/
def stepOK (s t : TSState) : Prop :=
  goodVarsW t.vars ∧
  (∀ w u, (s.vars w).unit = some u → (t.vars w).unit = some u) ∧
  (∀ c ∈ t.unprocessed, l0free c) ∧
  (∀ c, placedV s c → placedV t c)

theorem stepOK_refl (s : TSState) (hgood : goodVarsW s.vars)
    (hupf : ∀ c ∈ s.unprocessed, l0free c) : stepOK s s :=
  ⟨hgood, fun _ _ h => h, hupf, fun _ h => h⟩

theorem placedV_vars_mono (t : TSState) (g : Nat → VarInfo)
    (hw : ∀ w c, c ∈ (t.vars w).watched → c ∈ (g w).watched)
    (hu : ∀ w u, (t.vars w).unit = some u → (g w).unit = some u) :
    ∀ c, placedV t c → placedV { t with vars := g } c := by
  intro c h
  rcases h with h | h | ⟨w, h⟩ | ⟨l, hl, u, hul, hp⟩
  · exact Or.inl h
  · exact Or.inr (Or.inl h)
  · exact Or.inr (Or.inr (Or.inl ⟨w, hw w c h⟩))
  · exact Or.inr (Or.inr (Or.inr ⟨l, hl, u, hu _ _ hul, hp⟩))

theorem stepOK_vars (s t : TSState) (g : Nat → VarInfo) (h : stepOK s t)
    (hg : goodVarsW g)
    (hw : ∀ w c, c ∈ (t.vars w).watched → c ∈ (g w).watched)
    (hu : ∀ w u, (t.vars w).unit = some u → (g w).unit = some u) :
    stepOK s { t with vars := g } :=
  ⟨hg, fun w u hsu => hu w u (h.2.1 w u hsu), h.2.2.1,
    fun c hc => placedV_vars_mono t g hw hu c (h.2.2.2 c hc)⟩

theorem stepOK_toBeAdded (s t : TSState) (cl : SATClause) (h : stepOK s t) :
    stepOK s { t with toBeAdded := cl :: t.toBeAdded } := by
  refine ⟨h.1, h.2.1, h.2.2.1, ?_⟩
  intro c hc
  rcases h.2.2.2 c hc with hx | hx | hx | hx
  · exact Or.inl hx
  · exact Or.inr (Or.inl (by simp [hx]))
  · exact Or.inr (Or.inr (Or.inl hx))
  · exact Or.inr (Or.inr (Or.inr hx))

/-- Sweeping inside a state, as a `stepOK` step. -/
theorem stepOK_sweep (s t : TSState) (var : Nat) (eager : Bool) (h : stepOK s t) :
    stepOK s { t with vars := (tryToSweepPure var eager t.vars).2 } := by
  obtain ⟨t1, t2, t3, t4⟩ := tryToSweepPure_main var eager t.vars h.1
  refine ⟨t1, ?_, h.2.2.1, ?_⟩
  · intro w u hsu
    rw [t2 w]
    exact h.2.1 w u hsu
  · intro c hc
    rcases h.2.2.2 c hc with hx | hx | ⟨w, hx⟩ | hx
    · exact Or.inl hx
    · exact Or.inr (Or.inl hx)
    · by_cases hv : w = var
      · rw [hv] at hx
        rcases t4 c hx with hin | ⟨w2, _, hcw⟩ | hsub
        · exact Or.inr (Or.inr (Or.inl ⟨var, hin⟩))
        · exact Or.inr (Or.inr (Or.inl ⟨w2, hcw⟩))
        · exact Or.inr (Or.inr (Or.inr hsub))
      · exact Or.inr (Or.inr (Or.inl ⟨w, t3 w c hv hx⟩))
    · exact Or.inr (Or.inr (Or.inr (subsumedByUnit_of_unit_eq t2 hx)))

/-- Un-puring a variable, as a `stepOK` step. -/
theorem stepOK_makeVarNonPure (s t : TSState) (var : Nat) (h : stepOK s t) :
    stepOK s (makeVarNonPure var t) := by
  obtain ⟨m1, m2, m3, m4, _⟩ := makeVarNonPure_main var t h.1 h.2.2.1
  exact ⟨m1, fun w u hsu => by rw [m2 w]; exact h.2.1 w u hsu, m3,
    fun c hc => m4 c (h.2.2.2 c hc)⟩

/-- The `if(vi._unseen)` step at the end of `processUnit`: become pure
with the unit literal's polarity. -/
theorem stepOK_setPure (s t : TSState) (var : Nat) (pol : Bool) (h : stepOK s t) :
    stepOK s (if (t.vars var).unseen = true then
      { t with
        vars := Function.update t.vars var
          ({ t.vars var with unseen := false, isPure := true, isPurePositive := pol }) }
      else t) := by
  split
  next hcond =>
    have hwe : (t.vars var).watched = [] := (h.1 var).1 hcond
    refine stepOK_vars s t _ h ?_ ?_ ?_
    · exact goodVarsW_update_emptyWatched _ _ _ h.1 hwe
    · intro w c hc
      by_cases hv : w = var
      · rw [hv, Function.update_same]
        rw [hv] at hc
        exact hc
      · rw [Function.update_noteq hv]
        exact hc
    · intro w u hu
      by_cases hv : w = var
      · rw [hv, Function.update_same]
        rw [hv] at hu
        exact hu
      · rw [Function.update_noteq hv]
        exact hu
  · exact h

/-- Final step of `processUnit`: pushing the unit clause onto `_toBeAddedClauses`
turns a `stepOK` intermediate state into the full postcondition, the clause
itself now being placed in `toBeAdded`. -/
theorem stepOK_conclude (s t : TSState) (cl : SATClause) (h : stepOK s t) :
    goodVarsW (({ t with toBeAdded := cl :: t.toBeAdded } : TSState).vars) ∧
    (∀ w u, (s.vars w).unit = some u →
      (({ t with toBeAdded := cl :: t.toBeAdded } : TSState).vars w).unit = some u) ∧
    (∀ c ∈ ({ t with toBeAdded := cl :: t.toBeAdded } : TSState).unprocessed, l0free c) ∧
    (∀ c, placedV s c → placedV ({ t with toBeAdded := cl :: t.toBeAdded } : TSState) c) ∧
    placedV ({ t with toBeAdded := cl :: t.toBeAdded } : TSState) cl := by
  have h2 := stepOK_toBeAdded s t cl h
  exact ⟨h2.1, h2.2.1, h2.2.2.1, h2.2.2.2, Or.inr (Or.inl (by simp))⟩

theorem processUnit_main (cl : SATClause) (s : TSState) (hne : cl ≠ [])
    (hgood : goodVarsW s.vars) (hupf : ∀ c ∈ s.unprocessed, l0free c) :
    goodVarsW ((processUnit cl s).vars) ∧
    (∀ w u, (s.vars w).unit = some u → ((processUnit cl s).vars w).unit = some u) ∧
    (∀ c ∈ (processUnit cl s).unprocessed, l0free c) ∧
    (∀ c, placedV s c → placedV (processUnit cl s) c) ∧
    placedV (processUnit cl s) cl := by
  unfold processUnit
  dsimp only
  cases hu : (s.vars (clHead cl).var).unit with
  | some u =>
    dsimp only
    by_cases hp : (clHead u).polarity = (clHead cl).polarity
    · rw [if_pos hp]
      exact ⟨hgood, fun w u' h => h, hupf, fun c h => h,
        Or.inr (Or.inr (Or.inr ⟨clHead cl, clHead_mem cl hne, u, hu, hp⟩))⟩
    · rw [if_neg hp]
      refine ⟨hgood, fun w u' h => h, hupf, ?_, ?_⟩
      · intro c hc
        rcases hc with hc | hc | hc | hc
        · exact Or.inl hc
        · exact Or.inr (Or.inl (by simp [hc]))
        · exact Or.inr (Or.inr (Or.inl hc))
        · exact Or.inr (Or.inr (Or.inr hc))
      · exact Or.inr (Or.inl (by simp))
  | none =>
    dsimp only
    set V := (clHead cl).var with hV
    set A := Function.update s.vars V ({ s.vars V with unit := some cl }) with hA
    have hAV : A V = { s.vars V with unit := some cl } :=
      Function.update_same V ({ s.vars V with unit := some cl }) s.vars
    have hAw : ∀ w, (A w).watched = (s.vars w).watched := by
      intro w
      by_cases hv : w = V
      · rw [hv, hA, Function.update_same]
      · rw [hA, Function.update_noteq hv]
    have hstep1 : stepOK s { s with vars := A } := by
      refine stepOK_vars s s A (stepOK_refl s hgood hupf) ?_ ?_ ?_
      · exact goodVarsW_update_keep _ _ _ hgood rfl rfl rfl
      · intro w c hc
        rw [hAw w]
        exact hc
      · intro w u' h'
        by_cases hv : w = V
        · rw [hv, hu] at h'
          exact absurd h' (by simp)
        · rw [hA, Function.update_noteq hv]
          exact h'
    split
    next hc1 =>
      split
      next hc2 =>
        have hs2a : stepOK s { ({ s with vars := A } : TSState) with
            vars := Function.update A V ({ A V with watched := ([] : List SATClause) }) } := by
          refine ⟨goodVarsW_update_emptyWatched _ _ _ hstep1.1 rfl, ?_, hstep1.2.2.1, ?_⟩
          · intro w u' h'
            dsimp only
            have hx := hstep1.2.1 w u' h'
            by_cases hv : w = V
            · rw [hv, Function.update_same]
              rw [hv] at hx
              exact hx
            · rw [Function.update_noteq hv]
              exact hx
          · intro c hcp
            unfold placedV
            dsimp only
            rcases hstep1.2.2.2 c hcp with hx | hx | ⟨w, hx⟩ | hx
            · exact Or.inl hx
            · exact Or.inr (Or.inl hx)
            · by_cases hv : w = V
              · rw [hv] at hx
                have hxw : c ∈ (s.vars V).watched := by rw [← hAw V]; exact hx
                obtain ⟨⟨l, hlc, hlv, hlp⟩, _⟩ := (hgood V).2 c hxw
                refine Or.inr (Or.inr (Or.inr ⟨l, hlc, cl, ?_, ?_⟩))
                · rw [hlv, Function.update_same]
                  rw [hAV]
                · exact (hlp.trans hc2).symm
              · refine Or.inr (Or.inr (Or.inl ⟨w, ?_⟩))
                rw [Function.update_noteq hv]
                exact hx
            · obtain ⟨l, hlc, u', hul, hp⟩ := hx
              refine Or.inr (Or.inr (Or.inr ⟨l, hlc, u', ?_, hp⟩))
              by_cases hv : l.var = V
              · rw [hv, Function.update_same]
                rw [hv] at hul
                exact hul
              · rw [Function.update_noteq hv]
                exact hul
        exact stepOK_conclude s _ cl (stepOK_setPure s _ V (clHead cl).polarity hs2a)
      next hc2 =>
        split
        next hc3 =>
          exact stepOK_conclude s _ cl (stepOK_setPure s _ V (clHead cl).polarity
            (stepOK_sweep s _ V false hstep1))
        next hc3 =>
          exact stepOK_conclude s _ cl (stepOK_setPure s _ V (clHead cl).polarity
            (stepOK_makeVarNonPure s _ V (stepOK_sweep s _ V false hstep1)))
    next hc1 =>
      exact stepOK_conclude s _ cl (stepOK_setPure s _ V (clHead cl).polarity hstep1)

/-- Main invariant of the `sweepLits` retry loop: the variable array stays
well-formed, units are never removed, parked or subsumed clauses stay
parked or subsumed, and on success (`fixed`) the clause itself ends up
parked or subsumed. -/
theorem sweepLits_main (cl : SATClause) (hcl : l0free cl) :
    ∀ (lits : List SATLit) (toUnpure : List Nat) (vars : Nat → VarInfo),
      (∀ l ∈ lits, l ∈ cl) → goodVarsW vars → noAssumpV vars →
      goodVarsW ((sweepLits cl lits toUnpure vars).2.2) ∧
      (∀ w u, (vars w).unit = some u →
        (((sweepLits cl lits toUnpure vars).2.2) w).unit = some u) ∧
      (∀ c, (∃ v, c ∈ (vars v).watched) ∨ subsumedByUnit vars c →
        (∃ v, c ∈ (((sweepLits cl lits toUnpure vars).2.2) v).watched) ∨
        subsumedByUnit ((sweepLits cl lits toUnpure vars).2.2) c) ∧
      ((sweepLits cl lits toUnpure vars).1 = true →
        (∃ v, cl ∈ (((sweepLits cl lits toUnpure vars).2.2) v).watched) ∨
        subsumedByUnit ((sweepLits cl lits toUnpure vars).2.2) cl) := by
  intro lits
  induction lits with
  | nil =>
    intro toUnpure vars hsub hgood hassump
    exact ⟨hgood, fun _ _ h => h, fun _ h => h, fun h => by simp [sweepLits] at h⟩
  | cons lit rest ih =>
    intro toUnpure vars hsub hgood hassump
    have hlit : lit ∈ cl := hsub lit (by simp)
    have hrest : ∀ l ∈ rest, l ∈ cl := fun l hl => hsub l (by simp [hl])
    obtain ⟨t1, t2, t3, t4⟩ := tryToSweepPure_main lit.var false vars hgood
    have hassump2 : noAssumpV (tryToSweepPure lit.var false vars).2 :=
      noAssumpV_of_samePA (tryToSweepPure_samePA lit.var false vars) hassump
    have hplace : ∀ c, (∃ v, c ∈ (vars v).watched) ∨ subsumedByUnit vars c →
        (∃ v, c ∈ ((tryToSweepPure lit.var false vars).2 v).watched) ∨
        subsumedByUnit ((tryToSweepPure lit.var false vars).2) c := by
      intro c hc
      rcases hc with ⟨v, hv⟩ | hsubq
      · by_cases hveq : v = lit.var
        · rw [hveq] at hv
          rcases t4 c hv with hx | ⟨w, _, hx⟩ | hx
          · exact Or.inl ⟨lit.var, hx⟩
          · exact Or.inl ⟨w, hx⟩
          · exact Or.inr hx
        · exact Or.inl ⟨v, t3 v c hveq hv⟩
      · exact Or.inr (subsumedByUnit_of_unit_eq t2 hsubq)
    unfold sweepLits
    dsimp only
    split
    · exact ih toUnpure vars hrest hgood hassump
    next hpure =>
      split
      next hsw =>
        dsimp only
        have hsucc := tryToSweepPure_succ lit.var false vars hsw
        have hl0 : ¬lit.var = 0 := hcl lit hlit
        have hrw : (tryWatchOrSubsume cl 0 (tryToSweepPure lit.var false vars).2).1 = true :=
          twsGo_place cl cl ((tryToSweepPure lit.var false vars).2)
            ⟨lit, hlit, hl0, hsucc.2.2, hsucc.2.1, hassump2 lit.var⟩
        obtain ⟨g1, g2, g3, g4⟩ := twsGo_main cl 0 hcl cl
          ((tryToSweepPure lit.var false vars).2) (fun l hl => hl) t1
        refine ⟨g1, ?_, ?_, ?_⟩
        · intro w u hu
          have hgoal : ((twsGo cl 0 cl (tryToSweepPure lit.var false vars).2).2 w).unit
              = some u := by
            rw [g2 w, t2 w]; exact hu
          exact hgoal
        · intro c hc
          rcases hplace c hc with ⟨v, hv⟩ | hsubq
          · exact Or.inl ⟨v, g3 v c hv⟩
          · exact Or.inr (subsumedByUnit_of_unit_eq g2 hsubq)
        · intro _
          rcases g4 hrw with ⟨v, _, hv⟩ | hsubq
          · exact Or.inl ⟨v, hv⟩
          · exact Or.inr hsubq
      next hsw =>
        obtain ⟨i1, i2, i3, i4⟩ := ih (lit.var :: toUnpure)
          ((tryToSweepPure lit.var false vars).2) hrest t1 hassump2
        refine ⟨i1, ?_, ?_, i4⟩
        · intro w u hu
          exact i2 w u (by rw [t2 w]; exact hu)
        · intro c hc
          exact i3 c (hplace c hc)

theorem stepOK_trans {s t u : TSState} (h1 : stepOK s t) (h2 : stepOK t u) :
    stepOK s u :=
  ⟨h2.1, fun w v hw => h2.2.1 w v (h1.2.1 w v hw), h2.2.2.1,
    fun c hc => h2.2.2.2 c (h1.2.2.2 c hc)⟩

/-- Un-puring a whole recorded stack of variables, as a `stepOK` step
(the `_toBeUnpured` drain at lines 176-180). -/
theorem stepOK_foldl_makeVarNonPure (s : TSState) :
    ∀ (l : List Nat) (t : TSState), stepOK s t →
      stepOK s (l.foldl (fun st v => makeVarNonPure v st) t) := by
  intro l
  induction l with
  | nil => intro t h; exact h
  | cons v tl ih =>
    intro t h
    simp only [List.foldl_cons]
    exact ih (makeVarNonPure v t) (stepOK_makeVarNonPure s t v h)

/-- Draining the queue: if `processUnprocessed` terminates within its
fuel, the final state satisfies the placement contract relative to the
initial one and its `_unprocessed` queue is empty. -/
theorem processUnprocessed_main :
    ∀ (fuel : Nat) (s t : TSState), processUnprocessed fuel s = some t →
      goodVarsW s.vars → noAssumpV s.vars → (∀ c ∈ s.unprocessed, l0free c) →
      stepOK s t ∧ t.unprocessed = [] := by
  intro fuel
  induction fuel with
  | zero =>
    intro s t h hgood hassump hupf
    unfold processUnprocessed at h
    split at h
    next hemp =>
      simp only [Option.some.injEq] at h
      subst h
      exact ⟨stepOK_refl s hgood hupf, List.isEmpty_iff.mp hemp⟩
    · exact absurd h (by simp)
  | succ f ih =>
    intro s t h hgood hassump hupf
    unfold processUnprocessed at h
    split at h
    next hemp =>
      simp only [Option.some.injEq] at h
      subst h
      exact ⟨stepOK_refl s hgood hupf, hemp⟩
    next cl rest hlist =>
      dsimp only at h
      have hclmem : cl ∈ s.unprocessed := by rw [hlist]; simp
      have hclf : l0free cl := hupf cl hclmem
      have hrestf : ∀ c ∈ rest, l0free c := fun c hc =>
        hupf c (by rw [hlist]; exact List.mem_cons_of_mem _ hc)
      split at h
      next hlen =>
        have hne : cl ≠ [] := by
          intro hnil
          rw [hnil] at hlen
          simp at hlen
        obtain ⟨p1, p2, p3, p4, p5⟩ :=
          processUnit_main cl { s with unprocessed := rest } hne hgood hrestf
        have hassump2 : noAssumpV (processUnit cl { s with unprocessed := rest }).vars :=
          noAssumpV_of_samePA
            (processUnit_samePA cl { s with unprocessed := rest }).1 hassump
        obtain ⟨hstep2, hemp2⟩ := ih _ t h p1 hassump2 p3
        refine ⟨stepOK_trans ⟨p1, p2, p3, ?_⟩ hstep2, hemp2⟩
        intro c hc
        rcases hc with hc | hc | hc | hc
        · rw [hlist] at hc
          rcases List.mem_cons.mp hc with rfl | hcr
          · exact p5
          · exact p4 c (Or.inl hcr)
        · exact p4 c (Or.inr (Or.inl hc))
        · exact p4 c (Or.inr (Or.inr (Or.inl hc)))
        · exact p4 c (Or.inr (Or.inr (Or.inr hc)))
      next hlen =>
        obtain ⟨g1, g2, g3, g4⟩ := twsGo_main cl 0 hclf cl s.vars (fun l hl => hl) hgood
        split at h
        next htw =>
          have hassump2 : noAssumpV (tryWatchOrSubsume cl 0 s.vars).2 :=
            noAssumpV_of_samePA (tryWatchOrSubsume_samePA cl 0 s.vars) hassump
          obtain ⟨hstep2, hemp2⟩ := ih _ t h g1 hassump2 hrestf
          refine ⟨stepOK_trans ⟨g1, fun w u hu => (g2 w).trans hu, hrestf, ?_⟩ hstep2,
            hemp2⟩
          intro c hc
          rcases hc with hc | hc | ⟨v, hc⟩ | hc
          · rw [hlist] at hc
            rcases List.mem_cons.mp hc with rfl | hcr
            · rcases g4 htw with ⟨v, _, hv⟩ | hsubq
              · exact Or.inr (Or.inr (Or.inl ⟨v, hv⟩))
              · exact Or.inr (Or.inr (Or.inr hsubq))
            · exact Or.inl hcr
          · exact Or.inr (Or.inl hc)
          · exact Or.inr (Or.inr (Or.inl ⟨v, g3 v c hc⟩))
          · exact Or.inr (Or.inr (Or.inr (subsumedByUnit_of_unit_eq g2 hc)))
        next htw =>
          obtain ⟨m1, m2, m3, m4⟩ :=
            sweepLits_main cl hclf cl [] s.vars (fun l hl => hl) hgood hassump
          have hassumpS : noAssumpV (sweepLits cl cl [] s.vars).2.2 :=
            noAssumpV_of_samePA (sweepLits_samePA cl cl [] s.vars) hassump
          split at h
          next hsl =>
            obtain ⟨hstep2, hemp2⟩ := ih _ t h m1 hassumpS hrestf
            refine ⟨stepOK_trans ⟨m1, m2, hrestf, ?_⟩ hstep2, hemp2⟩
            intro c hc
            rcases hc with hc | hc | ⟨v, hc⟩ | hc
            · rw [hlist] at hc
              rcases List.mem_cons.mp hc with rfl | hcr
              · rcases m4 hsl with ⟨v, hv⟩ | hsubq
                · exact Or.inr (Or.inr (Or.inl ⟨v, hv⟩))
                · exact Or.inr (Or.inr (Or.inr hsubq))
              · exact Or.inl hcr
            · exact Or.inr (Or.inl hc)
            · rcases m3 c (Or.inl ⟨v, hc⟩) with ⟨w, hw⟩ | hsubq
              · exact Or.inr (Or.inr (Or.inl ⟨w, hw⟩))
              · exact Or.inr (Or.inr (Or.inr hsubq))
            · rcases m3 c (Or.inr hc) with ⟨w, hw⟩ | hsubq
              · exact Or.inr (Or.inr (Or.inl ⟨w, hw⟩))
              · exact Or.inr (Or.inr (Or.inr hsubq))
          next hsl =>
            have hstepA : stepOK s { s with
                unprocessed := rest,
                vars := (sweepLits cl cl [] s.vars).2.2,
                toBeAdded := cl :: s.toBeAdded } := by
              refine ⟨m1, m2, hrestf, ?_⟩
              intro c hc
              rcases hc with hc | hc | ⟨v, hc⟩ | hc
              · rw [hlist] at hc
                rcases List.mem_cons.mp hc with rfl | hcr
                · exact Or.inr (Or.inl (by simp))
                · exact Or.inl hcr
              · exact Or.inr (Or.inl (by simp [hc]))
              · rcases m3 c (Or.inl ⟨v, hc⟩) with ⟨w, hw⟩ | hsubq
                · exact Or.inr (Or.inr (Or.inl ⟨w, hw⟩))
                · exact Or.inr (Or.inr (Or.inr hsubq))
              · rcases m3 c (Or.inr hc) with ⟨w, hw⟩ | hsubq
                · exact Or.inr (Or.inr (Or.inl ⟨w, hw⟩))
                · exact Or.inr (Or.inr (Or.inr hsubq))
            have hstepB := stepOK_foldl_makeVarNonPure s (sweepLits cl cl [] s.vars).2.1
              _ hstepA
            have hassumpB : noAssumpV ((sweepLits cl cl [] s.vars).2.1.foldl
                (fun st v => makeVarNonPure v st) { s with
                  unprocessed := rest,
                  vars := (sweepLits cl cl [] s.vars).2.2,
                  toBeAdded := cl :: s.toBeAdded }).vars :=
              noAssumpV_of_samePA (foldl_makeVarNonPure_samePA _ _).1 hassumpS
            obtain ⟨hstep2, hemp2⟩ := ih _ t h hstepB.1 hassumpB hstepB.2.2.1
            exact ⟨stepOK_trans hstepB hstep2, hemp2⟩

/-- C10: `TransparentSolver::addClauses` carries the undocumented entry
precondition (the `ASS`ertions at lines 33-35) that no assumptions are
outstanding and that `_unprocessed` and `_toBeAdded` are both empty.
Under it - together with the structural well-formedness of the watched
lists and the clauses using only proper (non-zero) SAT variables - both
queues are empty again on return, and every input clause is accounted
for: forwarded to the inner solver in the flushed batch, parked in some
variable's watched list, or subsumed by a unit clause. -/
theorem c10_theorem (fuel : Nat) (cls : List SATClause) (op : Bool)
    (s t : TSState)
    (hassumps : s.assumptions = []) (hnoassump : noAssumpV s.vars)
    (hunp : s.unprocessed = []) (htba : s.toBeAdded = [])
    (hgood : goodVarsW s.vars) (hl0 : ∀ c ∈ cls, l0free c)
    (hres : addClauses fuel cls op s = some t) :
    t.unprocessed = [] ∧ t.toBeAdded = [] ∧
    ∃ fwd, t.inner = InnerEvent.addClauses fwd op :: s.inner ∧
      ∀ c ∈ cls, c ∈ fwd ∨ (∃ v, c ∈ (t.vars v).watched) ∨
        subsumedByUnit t.vars c := by
  unfold addClauses at hres
  dsimp only at hres
  cases hpp : processUnprocessed fuel { s with unprocessed := cls ++ s.unprocessed } with
  | none =>
    rw [hpp] at hres
    exact absurd hres (by simp)
  | some t' =>
    rw [hpp] at hres
    simp only [Option.map_some', Option.some.injEq] at hres
    subst hres
    have hupf1 : ∀ c ∈ ({ s with unprocessed := cls ++ s.unprocessed } : TSState).unprocessed,
        l0free c := by
      intro c hc
      simp only [List.mem_append, hunp, List.not_mem_nil, or_false] at hc
      exact hl0 c hc
    obtain ⟨hstep, hemptyq⟩ :=
      processUnprocessed_main fuel _ t' hpp hgood hnoassump hupf1
    obtain ⟨_, _, hinner⟩ := processUnprocessed_samePA fuel _ t' hpp
    refine ⟨hemptyq, rfl, t'.toBeAdded, ?_, ?_⟩
    · show InnerEvent.addClauses t'.toBeAdded op :: t'.inner
        = InnerEvent.addClauses t'.toBeAdded op :: s.inner
      rw [hinner]
    · intro c hc
      have hplaced : placedV t' c :=
        hstep.2.2.2 c (Or.inl (List.mem_append.mpr (Or.inl hc)))
      rcases hplaced with hq | hq | ⟨v, hq⟩ | hq
      · rw [hemptyq] at hq
        exact absurd hq (List.not_mem_nil c)
      · exact Or.inl hq
      · exact Or.inr (Or.inl ⟨v, hq⟩)
      · exact Or.inr (Or.inr hq)

/-- Fresh solver state: default variable info everywhere, all queues and
traces empty. -/
def tsInit : TSState :=
  { vars := fun _ => {}, unprocessed := [], toBeAdded := [], assumptions := [],
    inner := [] }

/-- The unit clause used in the `addClauses` contract instantiation. -/
def cl10 : SATClause := [⟨1, true⟩]

/-- The state `addClauses 2 [cl10] false tsInit` computes to: variable 1
holds `cl10` as unit and is pure-positive, and the clause was flushed. -/
def t10 : TSState :=
  { vars := Function.update
      (Function.update (fun _ => ({} : VarInfo)) 1 { unit := some cl10 })
      1 { unseen := false, isPure := true, isPurePositive := true, unit := some cl10 },
    unprocessed := [], toBeAdded := [], assumptions := [],
    inner := [InnerEvent.addClauses [cl10] false] }

/-- Instantiation of the `addClauses` contract on a fresh solver fed one
unit clause: all hypotheses hold and the clause ends up forwarded. -/
theorem c10_witness :
    tsInit.assumptions = [] ∧ noAssumpV tsInit.vars ∧ tsInit.unprocessed = [] ∧
    tsInit.toBeAdded = [] ∧ goodVarsW tsInit.vars ∧ (∀ c ∈ [cl10], l0free c) ∧
    addClauses 2 [cl10] false tsInit = some t10 ∧
    (t10.unprocessed = [] ∧ t10.toBeAdded = [] ∧
      ∃ fwd, t10.inner = InnerEvent.addClauses fwd false :: tsInit.inner ∧
        ∀ c ∈ [cl10], c ∈ fwd ∨ (∃ v, c ∈ (t10.vars v).watched) ∨
          subsumedByUnit t10.vars c) := by
  have hgood : goodVarsW tsInit.vars :=
    fun v => ⟨fun _ => rfl, fun c hc => absurd hc (List.not_mem_nil c)⟩
  have hnoassump : noAssumpV tsInit.vars := fun v => rfl
  have hl0 : ∀ c ∈ [cl10], l0free c := by
    intro c hc l hl
    simp only [List.mem_singleton] at hc
    subst hc
    simp only [cl10, List.mem_singleton] at hl
    subst hl
    decide
  have hres : addClauses 2 [cl10] false tsInit = some t10 := rfl
  exact ⟨rfl, hnoassump, rfl, rfl, hgood, hl0, hres,
    c10_theorem 2 [cl10] false tsInit t10 rfl hnoassump rfl rfl hgood hl0 hres⟩

end SAT

namespace AIG

/-- A node of the topologically ordered AIG stack `_refAIGs`
(part_001).  `parents` are the references to the node's sub-AIGs as
`r.parent(pi)` returns them: the stack index of the positive form
(always smaller than the node's own index, ensured by
`makeOrderedAIGGraphStack`) together with the negation flag
`!par.polarity()`. -/
structure AIGNode where
  isPropConst : Bool
  isAtom : Bool
  isQuantifier : Bool
  parents : List (Nat × Bool)
deriving DecidableEq, Repr

/-- Per-node state of `_refAIGInfos` as used by the second pass:
`_formRefCnt`, `_hasName`, `_inPol[0/1]` and `_inQuant[0/1]`.  `_hasName`
stands both for the flag and for membership of the node's (positive) AIG
in `_defs`: the two are kept in sync per node (first pass seeds the flag
from `_defs.find`; `introduceName` sets the flag and inserts into
`_defs`; no other code touches either). -/
structure NodeSt where
  formRefCnt : Nat
  hasName : Bool
  inPolF : Bool
  inPolT : Bool
  inQuantF : Bool
  inQuantT : Bool
deriving DecidableEq, Repr

/-- Ordered-stack well-formedness: every parent reference points below
the referring node. -/
def wfGb (g : List AIGNode) : Bool :=
  (List.range g.length).all (fun i =>
    match g[i]? with
    | none => true
    | some nd => nd.parents.all (fun p => decide (p.1 < i)))

/-- State of the node array after `doFirstRefAIGPass` (lines 542-582), as
far as the second pass reads it: `_formRefCnt = 0`, `_inPol` and
`_inQuant` cleared, `_hasName` seeded from `_defs` (abstracted by the
oracle `preNamed`). -/
def initNodeSt (preNamed : Nat → Bool) : Nat → NodeSt := fun i =>
  { formRefCnt := 0, hasName := preNamed i,
    inPolF := false, inPolT := false, inQuantF := false, inQuantT := false }

/-- One step of the top-level seeding loop of `doSecondRefAIGPass`
(lines 686-695): for a top-level AIG `a`, the node of its positive form
gets `_formRefCnt++` and `_inPol[a.polarity()] = true`.  A pair
`(idx, pol)` stands for the stack index of the positive form and
`a.polarity()`. -/
def tlStep (st : Nat → NodeSt) (tl : Nat × Bool) : Nat → NodeSt :=
  let n := st tl.1
  Function.update st tl.1
    { n with
      formRefCnt := n.formRefCnt + 1,
      inPolT := if tl.2 then true else n.inPolT,
      inPolF := if tl.2 then n.inPolF else true }

/-- `AIGDefinitionIntroducer::shouldIntroduceName` (lines 597-614): no
name for propositional constants and atoms, none when the threshold is
unset (`!_namingRefCntThreshold`) or the accumulated count is below it,
none when the node is already named (`_defs.find(a)`, in sync with
`_hasName`). -/
def shouldIntroduceName (thr : Nat) (g : List AIGNode) (st : Nat → NodeSt)
    (i : Nat) : Bool :=
  match g[i]? with
  | none => false
  | some nd =>
    if nd.isPropConst || nd.isAtom then false
    else if thr = 0 || (st i).formRefCnt < thr then false
    else if (st i).hasName then false
    else true

/-- `AIGDefinitionIntroducer::introduceName` (lines 646-679), as far as
the node array is concerned: `_formRefCnt = 1`, `_hasName = true` (the
minted predicate, `_defs`/`_defUnits` insertion and the pushed definition
unit are modelled by recording the node's index at the call site). -/
def introduceName (st : Nat → NodeSt) (i : Nat) : Nat → NodeSt :=
  Function.update st i { st i with formRefCnt := 1, hasName := true }

/-- One iteration of the parent loop of the reverse pass (lines 712-731):
parent `p` of node `i` receives the quantifier flag, the polarity- and
quantifier-occurrence bits (indices XOR-ed with the negation flag `p.2`)
and `pni._formRefCnt += ni._formRefCnt`. -/
def propagateStep (isQuant : Bool) (i : Nat) (st : Nat → NodeSt)
    (p : Nat × Bool) : Nat → NodeSt :=
  let ni := st i
  let pn := st p.1
  let pn1 := if isQuant then
      (if p.2 then { pn with inQuantF := true } else { pn with inQuantT := true })
    else pn
  Function.update st p.1
    (if p.2 then
      { pn1 with
        inQuantT := pn1.inQuantT || ni.inQuantF,
        inQuantF := pn1.inQuantF || ni.inQuantT,
        inPolT := pn1.inPolT || ni.inPolF,
        inPolF := pn1.inPolF || ni.inPolT,
        formRefCnt := pn1.formRefCnt + ni.formRefCnt }
    else
      { pn1 with
        inQuantT := pn1.inQuantT || ni.inQuantT,
        inQuantF := pn1.inQuantF || ni.inQuantF,
        inPolT := pn1.inPolT || ni.inPolT,
        inPolF := pn1.inPolF || ni.inPolF,
        formRefCnt := pn1.formRefCnt + ni.formRefCnt })

/-- Body of the reverse loop of `doSecondRefAIGPass` for index `i`
(lines 697-731): reset the count of an already named node to 1, then
possibly introduce a name (recorded by pushing `i`), then propagate the
occurrence data and the count to the parents. -/
def secondVisit (thr : Nat) (g : List AIGNode) (i : Nat)
    (s : (Nat → NodeSt) × List Nat) : (Nat → NodeSt) × List Nat :=
  match g[i]? with
  | none => s
  | some nd =>
    let st1 := if (s.1 i).hasName then
        Function.update s.1 i { s.1 i with formRefCnt := 1 }
      else s.1
    if shouldIntroduceName thr g st1 i then
      (nd.parents.foldl (propagateStep nd.isQuantifier i) (introduceName st1 i),
        i :: s.2)
    else
      (nd.parents.foldl (propagateStep nd.isQuantifier i) st1, s.2)

/-- The reverse loop `for(i=aigCnt; i>0;){ i--; ... }` (line 698):
`passDown thr g m s` visits indices `m-1, ..., 0`. -/
def passDown (thr : Nat) (g : List AIGNode) :
    Nat → ((Nat → NodeSt) × List Nat) → (Nat → NodeSt) × List Nat
  | 0, s => s
  | i + 1, s => passDown thr g i (secondVisit thr g i s)

/-- `AIGDefinitionIntroducer::doSecondRefAIGPass` (lines 681-732): seed
the counts from the top-level AIGs `tls`, then run the reverse pass over
the whole stack.  Returns the final node array and the stack of node
indices named during the pass (`_newDefs`, newest first). -/
def doSecondRefAIGPass (thr : Nat) (g : List AIGNode) (tls : List (Nat × Bool))
    (preNamed : Nat → Bool) : (Nat → NodeSt) × List Nat :=
  passDown thr g g.length (tls.foldl tlStep (initNodeSt preNamed), [])

/-- Number of top-level occurrences of node `i` (with either polarity). -/
def tlCnt (tls : List (Nat × Bool)) (i : Nat) : Nat :=
  tls.countP (fun t => t.1 == i)

/-- Number of references from node `k` down to node `j` (with either
polarity, counted with multiplicity). -/
def parMult (g : List AIGNode) (k j : Nat) : Nat :=
  match g[k]? with
  | none => 0
  | some nd => nd.parents.countP (fun p => p.1 == j)

/-- Modelled from the spec: the naming condition on a node given its
accumulated count `cnt` - the count has reached the threshold, the node
is neither a propositional constant nor an atom, and it is not already
named. -/
def introCond (thr : Nat) (g : List AIGNode) (preNamed : Nat → Bool)
    (k cnt : Nat) : Bool :=
  match g[k]? with
  | none => false
  | some nd => !(nd.isPropConst || nd.isAtom) && decide (thr ≤ cnt) && !preNamed k

/-- Modelled from the spec: the effective reference count a node
contributes upstream - named nodes (pre-named, or freshly named because
their accumulated count `cnt` triggered naming) count as a single
sub-occurrence. -/
def effOf (thr : Nat) (g : List AIGNode) (preNamed : Nat → Bool)
    (k cnt : Nat) : Nat :=
  if preNamed k || introCond thr g preNamed k cnt then 1 else cnt

/-- Modelled from the spec: the accumulated formula reference count of a
node - its top-level occurrences plus, for every node above it, that
node's effective count times the number of references down to it. -/
def specAcc (thr : Nat) (g : List AIGNode) (tls : List (Nat × Bool))
    (preNamed : Nat → Bool) : Nat → Nat
  | i =>
    tlCnt tls i + ∑ k ∈ (Finset.Ico (i + 1) g.length).attach,
      effOf thr g preNamed k.1 (specAcc thr g tls preNamed k.1) * parMult g k.1 i
termination_by i => g.length - i
decreasing_by
  have hk := Finset.mem_Ico.mp k.2
  omega

/-- Modelled from the spec: whether the pass names node `i`. -/
def specIntroduced (thr : Nat) (g : List AIGNode) (tls : List (Nat × Bool))
    (preNamed : Nat → Bool) (i : Nat) : Bool :=
  introCond thr g preNamed i (specAcc thr g tls preNamed i)

/-- Modelled from the spec: the effective reference count of node `i`
after the pass. -/
def specEff (thr : Nat) (g : List AIGNode) (tls : List (Nat × Bool))
    (preNamed : Nat → Bool) (i : Nat) : Nat :=
  effOf thr g preNamed i (specAcc thr g tls preNamed i)

/-- Invariant of the reverse pass before visiting index `i-1`: nodes not
yet visited carry their top-level count plus what the already visited
nodes propagated down; visited nodes carry their effective count and
final name flag; the recorded fresh names are exactly the visited nodes
whose accumulated count triggered naming. -/
def c8Inv (thr : Nat) (g : List AIGNode) (tls : List (Nat × Bool))
    (preNamed : Nat → Bool) (i : Nat) (s : (Nat → NodeSt) × List Nat) : Prop :=
  (∀ j, j < i →
    (s.1 j).formRefCnt = tlCnt tls j +
      ∑ k ∈ Finset.Ico i g.length, specEff thr g tls preNamed k * parMult g k j ∧
    (s.1 j).hasName = preNamed j) ∧
  (∀ j, i ≤ j → j < g.length →
    (s.1 j).formRefCnt = specEff thr g tls preNamed j ∧
    (s.1 j).hasName = (preNamed j || specIntroduced thr g tls preNamed j)) ∧
  (∀ j, s.2.count j =
    if i ≤ j ∧ specIntroduced thr g tls preNamed j = true then 1 else 0)

theorem tlFold_cnt : ∀ (tls : List (Nat × Bool)) (st : Nat → NodeSt) (j : Nat),
    ((tls.foldl tlStep st) j).formRefCnt = (st j).formRefCnt + tlCnt tls j := by
  intro tls
  induction tls with
  | nil => intro st j; simp [tlCnt]
  | cons t rest ih =>
    intro st j
    simp only [List.foldl_cons]
    rw [ih]
    unfold tlCnt tlStep
    rw [List.countP_cons]
    by_cases hj : t.1 = j
    · subst hj
      rw [Function.update_same]
      simp only [beq_self_eq_true, if_true]
      omega
    · rw [Function.update_noteq (Ne.symm hj)]
      have hb : (t.1 == j) = false := by simp [hj]
      rw [hb]
      simp

theorem tlFold_hasName : ∀ (tls : List (Nat × Bool)) (st : Nat → NodeSt) (j : Nat),
    ((tls.foldl tlStep st) j).hasName = (st j).hasName := by
  intro tls
  induction tls with
  | nil => intro st j; rfl
  | cons t rest ih =>
    intro st j
    simp only [List.foldl_cons]
    rw [ih]
    unfold tlStep
    by_cases hj : t.1 = j
    · rw [hj, Function.update_same]
    · rw [Function.update_noteq (Ne.symm hj)]

theorem propagateStep_noteq (q : Bool) (i : Nat) (st : Nat → NodeSt)
    (p : Nat × Bool) (j : Nat) (hj : ¬p.1 = j) :
    (propagateStep q i st p) j = st j := by
  unfold propagateStep
  exact Function.update_noteq (Ne.symm hj) _ _

theorem propagateStep_self_cnt (q : Bool) (i : Nat) (st : Nat → NodeSt)
    (p : Nat × Bool) :
    ((propagateStep q i st p) p.1).formRefCnt
      = (st p.1).formRefCnt + (st i).formRefCnt := by
  unfold propagateStep
  rw [Function.update_same]
  split <;> split <;> rfl

theorem propagateStep_hasName (q : Bool) (i : Nat) (st : Nat → NodeSt)
    (p : Nat × Bool) (j : Nat) :
    ((propagateStep q i st p) j).hasName = (st j).hasName := by
  by_cases hj : p.1 = j
  · rw [← hj]
    unfold propagateStep
    rw [Function.update_same]
    split <;> split <;> rfl
  · rw [propagateStep_noteq q i st p j hj]

theorem foldl_propagate_hasName (q : Bool) (i : Nat) :
    ∀ (ps : List (Nat × Bool)) (st : Nat → NodeSt) (j : Nat),
      ((ps.foldl (propagateStep q i) st) j).hasName = (st j).hasName := by
  intro ps
  induction ps with
  | nil => intro st j; rfl
  | cons p rest ih =>
    intro st j
    simp only [List.foldl_cons]
    rw [ih, propagateStep_hasName]

theorem foldl_propagate_cnt (q : Bool) (i : Nat) :
    ∀ (ps : List (Nat × Bool)) (st : Nat → NodeSt), (∀ p ∈ ps, ¬p.1 = i) →
      ∀ j, ((ps.foldl (propagateStep q i) st) j).formRefCnt
        = (st j).formRefCnt +
          (st i).formRefCnt * ps.countP (fun p => p.1 == j) := by
  intro ps
  induction ps with
  | nil => intro st _ j; simp
  | cons p rest ih =>
    intro st hps j
    simp only [List.foldl_cons]
    have hpi : ¬p.1 = i := hps p (by simp)
    have hrest : ∀ x ∈ rest, ¬x.1 = i := fun x hx => hps x (by simp [hx])
    rw [ih _ hrest j, propagateStep_noteq q i st p i hpi, List.countP_cons]
    by_cases hj : p.1 = j
    · have h1 : ((propagateStep q i st p) j).formRefCnt
          = (st j).formRefCnt + (st i).formRefCnt := by
        rw [← hj]
        exact propagateStep_self_cnt q i st p
      have hb : (p.1 == j) = true := by simp [hj]
      rw [h1, hb]
      simp only [eq_self_iff_true, if_true]
      ring
    · have hb : (p.1 == j) = false := by simp [hj]
      rw [propagateStep_noteq q i st p j hj, hb]
      simp

theorem specAcc_eq (thr : Nat) (g : List AIGNode) (tls : List (Nat × Bool))
    (preNamed : Nat → Bool) (i : Nat) :
    specAcc thr g tls preNamed i = tlCnt tls i +
      ∑ k ∈ Finset.Ico (i + 1) g.length,
        specEff thr g tls preNamed k * parMult g k i := by
  conv_lhs => rw [specAcc]
  simp only [specEff]
  exact congrArg (fun x => tlCnt tls i + x)
    (Finset.sum_attach (Finset.Ico (i + 1) g.length)
      (fun k => effOf thr g preNamed k (specAcc thr g tls preNamed k) * parMult g k i))

theorem specIntroduced_ge (thr : Nat) (g : List AIGNode) (tls : List (Nat × Bool))
    (preNamed : Nat → Bool) (j : Nat) (hj : g.length ≤ j) :
    specIntroduced thr g tls preNamed j = false := by
  unfold specIntroduced introCond
  rw [List.getElem?_eq_none hj]

theorem wfGb_spec (g : List AIGNode) (hwf : wfGb g = true) :
    ∀ (i : Nat) (nd : AIGNode), g[i]? = some nd → ∀ p ∈ nd.parents, p.1 < i := by
  intro i nd hnd p hp
  have hi : i < g.length := by
    by_contra hcon
    rw [List.getElem?_eq_none (Nat.le_of_not_lt hcon)] at hnd
    exact absurd hnd (by simp)
  unfold wfGb at hwf
  rw [List.all_eq_true] at hwf
  have h1 := hwf i (List.mem_range.mpr hi)
  rw [hnd] at h1
  dsimp only at h1
  rw [List.all_eq_true] at h1
  have h2 := h1 p hp
  simpa using h2

/-- One iteration of the reverse pass preserves the invariant, moving
the boundary from `i+1` down to `i`. -/
theorem c8_step (thr : Nat) (g : List AIGNode) (tls : List (Nat × Bool))
    (preNamed : Nat → Bool) (hthr : 0 < thr) (hwf : wfGb g = true) (i : Nat)
    (hi : i < g.length) (s : (Nat → NodeSt) × List Nat)
    (h : c8Inv thr g tls preNamed (i + 1) s) :
    c8Inv thr g tls preNamed i (secondVisit thr g i s) := by
  obtain ⟨h1, h2, h3⟩ := h
  obtain ⟨hci, hni⟩ := h1 i (Nat.lt_succ_self i)
  have hacc : (s.1 i).formRefCnt = specAcc thr g tls preNamed i := by
    rw [hci, specAcc_eq]
  cases hnd : g[i]? with
  | none =>
    rw [List.getElem?_eq_none_iff] at hnd
    omega
  | some nd =>
    have hps : ∀ p ∈ nd.parents, p.1 < i := wfGb_spec g hwf i nd hnd
    have hpsne : ∀ p ∈ nd.parents, ¬p.1 = i := fun p hp => Nat.ne_of_lt (hps p hp)
    have key : ∀ (st2 : Nat → NodeSt) (names2 : List Nat),
        (st2 i).formRefCnt = specEff thr g tls preNamed i →
        (st2 i).hasName = (preNamed i || specIntroduced thr g tls preNamed i) →
        (∀ j, ¬j = i → st2 j = s.1 j) →
        (∀ j, names2.count j =
          if i ≤ j ∧ specIntroduced thr g tls preNamed j = true then 1 else 0) →
        c8Inv thr g tls preNamed i
          (nd.parents.foldl (propagateStep nd.isQuantifier i) st2, names2) := by
      intro st2 names2 hc2 hn2 hne2 hcnt2
      refine ⟨?_, ?_, hcnt2⟩
      · intro j hj
        have hji : ¬j = i := Nat.ne_of_lt hj
        constructor
        · rw [foldl_propagate_cnt nd.isQuantifier i nd.parents st2 hpsne j,
            hne2 j hji, hc2, (h1 j (Nat.lt_succ_of_lt hj)).1,
            Finset.sum_eq_sum_Ico_succ_bot hi
              (fun k => specEff thr g tls preNamed k * parMult g k j)]
          have hpm : parMult g i j = nd.parents.countP (fun p => p.1 == j) := by
            unfold parMult
            rw [hnd]
          rw [hpm]
          ring
        · rw [foldl_propagate_hasName, hne2 j hji]
          exact (h1 j (Nat.lt_succ_of_lt hj)).2
      · intro j hij hjn
        by_cases hji : j = i
        · subst hji
          have hz : nd.parents.countP (fun p => p.1 == j) = 0 := by
            rw [List.countP_eq_zero]
            intro p hp
            simp only [beq_iff_eq]
            exact fun e => hpsne p hp e
          constructor
          · rw [foldl_propagate_cnt nd.isQuantifier j nd.parents st2 hpsne j, hz, hc2]
            simp
          · rw [foldl_propagate_hasName]
            exact hn2
        · have hij1 : i + 1 ≤ j := by omega
          have hz : nd.parents.countP (fun p => p.1 == j) = 0 := by
            rw [List.countP_eq_zero]
            intro p hp
            have hlt := hps p hp
            simp only [beq_iff_eq]
            omega
          constructor
          · rw [foldl_propagate_cnt nd.isQuantifier i nd.parents st2 hpsne j, hz,
              hne2 j hji]
            simp only [Nat.mul_zero, Nat.add_zero]
            exact (h2 j hij1 hjn).1
          · rw [foldl_propagate_hasName, hne2 j hji]
            exact (h2 j hij1 hjn).2
    unfold secondVisit
    rw [hnd]
    dsimp only
    by_cases hpn : (s.1 i).hasName = true
    · rw [if_pos hpn]
      have hname1 : preNamed i = true := by rw [← hni]; exact hpn
      have hsi : specIntroduced thr g tls preNamed i = false := by
        unfold specIntroduced introCond
        rw [hnd, hname1]
        simp
      have hdec : shouldIntroduceName thr g
          (Function.update s.1 i { s.1 i with formRefCnt := 1 }) i = false := by
        unfold shouldIntroduceName
        rw [hnd]
        dsimp only
        split
        · rfl
        · split
          · rfl
          · have hh : (Function.update s.1 i
                ({ s.1 i with formRefCnt := 1 }) i).hasName = true := by
              rw [Function.update_same]
              exact hpn
            rw [if_pos hh]
      rw [hdec, if_neg (by simp)]
      refine key _ s.2 ?_ ?_ ?_ ?_
      · rw [Function.update_same]
        unfold specEff effOf
        rw [hname1]
        simp
      · rw [Function.update_same, hsi, Bool.or_false]
        show (s.1 i).hasName = preNamed i
        exact hni
      · intro j hj
        rw [Function.update_noteq hj]
      · intro j
        rw [h3 j]
        by_cases hji : j = i
        · subst hji
          rw [hsi]
          simp
        · refine if_congr ?_ rfl rfl
          constructor
          · rintro ⟨hle, hx⟩
            exact ⟨by omega, hx⟩
          · rintro ⟨hle, hx⟩
            exact ⟨by omega, hx⟩
    · rw [if_neg hpn]
      have hb : (s.1 i).hasName = false := by
        cases hh : (s.1 i).hasName
        · rfl
        · exact absurd hh hpn
      have hname0 : preNamed i = false := by rw [← hni]; exact hb
      have hdec : shouldIntroduceName thr g s.1 i
          = specIntroduced thr g tls preNamed i := by
        unfold shouldIntroduceName specIntroduced introCond
        rw [hnd, ← hacc, hname0, hb]
        dsimp only
        cases hca : nd.isPropConst || nd.isAtom
        · rw [if_neg (by simp [hca])]
          by_cases hth : thr ≤ (s.1 i).formRefCnt
          · rw [if_neg (by simp; omega), if_neg (by simp)]
            simp [hth]
          · rw [if_pos (by simp; omega)]
            simp [hth]
        · rw [if_pos (by simp [hca])]
          simp
      rw [hdec]
      by_cases hint : specIntroduced thr g tls preNamed i = true
      · rw [if_pos hint]
        have heff1 : specEff thr g tls preNamed i = 1 := by
          unfold specEff effOf
          unfold specIntroduced at hint
          rw [hint]
          simp
        refine key _ (i :: s.2) ?_ ?_ ?_ ?_
        · unfold introduceName
          rw [Function.update_same, heff1]
        · unfold introduceName
          rw [Function.update_same, hint]
          simp
        · intro j hj
          unfold introduceName
          rw [Function.update_noteq hj]
        · intro j
          rw [List.count_cons, h3 j]
          by_cases hji : j = i
          · subst hji
            simp [hint]
          · have hbe : (i == j) = false := by
              simp only [beq_eq_false_iff_ne, ne_eq]
              exact fun e => hji e.symm
            rw [hbe]
            simp only [Bool.false_eq_true, if_false, Nat.add_zero]
            refine if_congr ?_ rfl rfl
            constructor
            · rintro ⟨hle, hx⟩
              exact ⟨by omega, hx⟩
            · rintro ⟨hle, hx⟩
              exact ⟨by omega, hx⟩
      · rw [if_neg hint]
        have hintf : specIntroduced thr g tls preNamed i = false := by
          cases hh : specIntroduced thr g tls preNamed i
          · rfl
          · exact absurd hh hint
        have heffacc : specEff thr g tls preNamed i
            = specAcc thr g tls preNamed i := by
          unfold specEff effOf
          unfold specIntroduced at hintf
          rw [hintf, hname0]
          simp
        refine key s.1 s.2 ?_ ?_ ?_ ?_
        · rw [hacc, heffacc]
        · rw [hb, hname0, hintf]
          simp
        · intro j _
          rfl
        · intro j
          rw [h3 j]
          by_cases hji : j = i
          · subst hji
            rw [hintf]
            simp
          · refine if_congr ?_ rfl rfl
            constructor
            · rintro ⟨hle, hx⟩
              exact ⟨by omega, hx⟩
            · rintro ⟨hle, hx⟩
              exact ⟨by omega, hx⟩

theorem passDown_inv (thr : Nat) (g : List AIGNode) (tls : List (Nat × Bool))
    (preNamed : Nat → Bool) (hthr : 0 < thr) (hwf : wfGb g = true) :
    ∀ (i : Nat) (s : (Nat → NodeSt) × List Nat), i ≤ g.length →
      c8Inv thr g tls preNamed i s →
      c8Inv thr g tls preNamed 0 (passDown thr g i s) := by
  intro i
  induction i with
  | zero => intro s _ h; exact h
  | succ i ih =>
    intro s hle h
    unfold passDown
    exact ih _ (Nat.le_of_succ_le hle)
      (c8_step thr g tls preNamed hthr hwf i (Nat.lt_of_succ_le hle) s h)

theorem c8_init (thr : Nat) (g : List AIGNode) (tls : List (Nat × Bool))
    (preNamed : Nat → Bool) :
    c8Inv thr g tls preNamed g.length
      (tls.foldl tlStep (initNodeSt preNamed), []) := by
  refine ⟨?_, ?_, ?_⟩
  · intro j hj
    constructor
    · rw [tlFold_cnt]
      simp [initNodeSt, Finset.Ico_self]
    · rw [tlFold_hasName]
      rfl
  · intro j hj hjn
    omega
  · intro j
    simp only [List.count_nil]
    have hc : ¬(g.length ≤ j ∧ specIntroduced thr g tls preNamed j = true) := by
      rintro ⟨hle, hintro⟩
      rw [specIntroduced_ge thr g tls preNamed j hle] at hintro
      exact absurd hintro (by simp)
    rw [if_neg hc]

/-- C8: in the second (reverse) pass of the AIG definition introducer a
fresh name is introduced for a node exactly when its accumulated formula
reference count (`specAcc`: top-level occurrences plus the effective
counts propagated down from the already visited nodes) has reached the
threshold, the node is neither a propositional constant nor an atom, and
it is not already named (`specIntroduced`); introduction resets the
node's effective reference count to 1 (`specEff`).  Hence after the pass
each qualifying node has exactly one entry on the fresh-name stack, its
name flag is set iff it was pre-named or qualified, and its final count
is its effective count. -/
theorem c8_theorem (thr : Nat) (g : List AIGNode) (tls : List (Nat × Bool))
    (preNamed : Nat → Bool) (hthr : 0 < thr) (hwf : wfGb g = true) (i : Nat)
    (hi : i < g.length) :
    (doSecondRefAIGPass thr g tls preNamed).2.count i
      = (if specIntroduced thr g tls preNamed i = true then 1 else 0) ∧
    ((doSecondRefAIGPass thr g tls preNamed).1 i).hasName
      = (preNamed i || specIntroduced thr g tls preNamed i) ∧
    ((doSecondRefAIGPass thr g tls preNamed).1 i).formRefCnt
      = specEff thr g tls preNamed i := by
  unfold doSecondRefAIGPass
  have hfin := passDown_inv thr g tls preNamed hthr hwf g.length
    (tls.foldl tlStep (initNodeSt preNamed), []) (le_refl g.length)
    (c8_init thr g tls preNamed)
  obtain ⟨hA, hB, hC⟩ := hfin
  refine ⟨?_, (hB i (Nat.zero_le i) hi).2, (hB i (Nat.zero_le i) hi).1⟩
  rw [hC i]
  by_cases hint : specIntroduced thr g tls preNamed i = true
  · rw [if_pos ⟨Nat.zero_le i, hint⟩, if_pos hint]
  · rw [if_neg (fun hc => hint hc.2), if_neg hint]

/-- Witness graph: node 0 an atom, node 1 a conjunction referred to four
times by node 2, node 2 the single top-level AIG.  With threshold 4 the
pass names exactly node 1. -/
def gW : List AIGNode :=
  [ { isPropConst := false, isAtom := true, isQuantifier := false, parents := [] },
    { isPropConst := false, isAtom := false, isQuantifier := false,
      parents := [(0, false), (0, true)] },
    { isPropConst := false, isAtom := false, isQuantifier := false,
      parents := [(1, false), (1, true), (1, false), (1, true)] } ]

/-- The single top-level occurrence for the witness graph. -/
def tlsW : List (Nat × Bool) := [(2, true)]

/-- No node of the witness graph is pre-named. -/
def preW : Nat → Bool := fun _ => false

/-- Concrete instantiation of the second-pass naming contract: on the
witness graph node 1 accumulates count 4, is named exactly once, and its
name flag ends up set. -/
theorem c8_witness :
    0 < 4 ∧ wfGb gW = true ∧ 1 < gW.length ∧
    (doSecondRefAIGPass 4 gW tlsW preW).2.count 1 = 1 ∧
    ((doSecondRefAIGPass 4 gW tlsW preW).1 1).hasName = true ∧
    ((doSecondRefAIGPass 4 gW tlsW preW).2.count 1
        = (if specIntroduced 4 gW tlsW preW 1 = true then 1 else 0) ∧
      ((doSecondRefAIGPass 4 gW tlsW preW).1 1).hasName
        = (preW 1 || specIntroduced 4 gW tlsW preW 1) ∧
      ((doSecondRefAIGPass 4 gW tlsW preW).1 1).formRefCnt
        = specEff 4 gW tlsW preW 1) := by
  refine ⟨by decide, by decide, by decide, by decide, by decide,
    c8_theorem 4 gW tlsW preW (by decide) (by decide) 1 (by decide)⟩

end AIG
